import Mathlib

/-!
# Verification of the BPM turn-by-turn format transcoder

Shallow embedding of `bpm_data_comparer.py`: two peer format handlers,
`BPMDataParen` (parenthesized `.data` format) and `BPMDataSDDS`
(row-tagged `.sdds` format), sharing a per-BPM dataset of x/y/z sample
arrays, plus the summary statistics and the writers between the formats.

Modelling conventions:
* Python `float` values are modelled as exact rationals (`ℚ`); `float(tok)`
  is the exact decimal value of the token, and arithmetic on samples is
  exact.  Binary64 rounding is abstracted away; the *decimal* rounding done
  by the `"{:.7g}"` format string is modelled exactly (`pyG7` below).
* Python strings are modelled as `List Char` internally, `String` at the
  API boundary.
* The regular expressions `_NUM_RE`, `_PATTERN` and the line-continuation
  substitution are deterministic on every input (their greedy character
  classes have disjoint follow sets, so backtracking never changes the
  result); they are embedded as the equivalent deterministic scanners,
  with each regex piece noted next to the code that models it.
* Recursions that consume a non-structural suffix use an explicit fuel
  argument (always called with the input length, which suffices), keeping
  every definition kernel-evaluable.
-/

deriving instance DecidableEq for Except

attribute [local semireducible] Rat.add Rat.mul Rat.sub Rat.inv Rat.ofScientific

namespace BPMData

/-- Python whitespace (`\s` of the `re` module and `str.strip()`):
space, tab, newline, carriage return, vertical tab, form feed. -/
def isPySpace (c : Char) : Bool :=
  c == ' ' || c == '\t' || c == '\n' || c == '\r' || c == Char.ofNat 11 || c == Char.ofNat 12

/-- The characters that can occur inside a match of the numeric regex
`_NUM_RE = [+-]?(?:\d*\.\d+|\d+)(?:[Ee][+-]?\d+)?`. -/
def isTokChar (c : Char) : Bool :=
  c.isDigit || c == '.' || c == 'e' || c == 'E' || c == '+' || c == '-'

/-- The mantissa part `(?:\d*\.\d+|\d+)` of `_NUM_RE`, matched at the head
of `cs`: returns the matched characters and the rest.  The left
alternative (`\d*\.\d+`) is tried first, exactly as the regex engine does;
if the dot or the post-dot digits are missing it falls back to the bare
digit run (`\d+`), which must then be non-empty. -/
def mantissa (cs : List Char) : Option (List Char × List Char) :=
  let d1 := cs.takeWhile Char.isDigit
  let r1 := cs.dropWhile Char.isDigit
  match r1 with
  | '.' :: r2 =>
    let d2 := r2.takeWhile Char.isDigit
    if d2 = [] then (if d1 = [] then none else some (d1, r1))
    else some (d1 ++ '.' :: d2, r2.dropWhile Char.isDigit)
  | _ => if d1 = [] then none else some (d1, r1)

/-- The optional exponent `(?:[Ee][+-]?\d+)?` of `_NUM_RE`, matched at the
head of `cs` (empty match if absent: the group is optional and the regex
backtracks out of it when the digits are missing). -/
def expPart (cs : List Char) : List Char × List Char :=
  match cs with
  | c :: r =>
    if c == 'e' || c == 'E' then
      match r with
      | s :: r2 =>
        if s == '+' || s == '-' then
          let d := r2.takeWhile Char.isDigit
          if d = [] then ([], cs) else (c :: s :: d, r2.dropWhile Char.isDigit)
        else
          let d := r.takeWhile Char.isDigit
          if d = [] then ([], cs) else (c :: d, r.dropWhile Char.isDigit)
      | [] => ([], cs)
    else ([], cs)
  | [] => ([], cs)

/-- A match of `_NUM_RE` anchored at the head of `cs`: the optional sign,
then the mantissa, then the optional exponent.  Returns the matched token
and the rest of the input, or `none` if no match starts here. -/
def numToken (cs : List Char) : Option (List Char × List Char) :=
  match cs with
  | [] => none
  | c :: r =>
    if c == '+' || c == '-' then
      match mantissa r with
      | none => none
      | some (m, r2) =>
        match expPart r2 with
        | (e, r3) => some (c :: (m ++ e), r3)
    else
      match mantissa cs with
      | none => none
      | some (m, r2) =>
        match expPart r2 with
        | (e, r3) => some (m ++ e, r3)

/-- `_NUM_RE.findall`: scan left to right, at each position try an anchored
match; on success emit the token and continue after it, otherwise advance
one character.  Fuel-recursive; `fuel = cs.length` always suffices since a
token is non-empty. -/
def findNumsAux : Nat → List Char → List (List Char)
  | 0, _ => []
  | _, [] => []
  | fuel + 1, cs =>
    match numToken cs with
    | some (t, r) => t :: findNumsAux fuel r
    | none =>
      match cs with
      | [] => []
      | _ :: rest => findNumsAux fuel rest

/-- `_NUM_RE.findall(s)` for a character list. -/
def findNums (cs : List Char) : List (List Char) :=
  findNumsAux cs.length cs

/-- Value of a run of decimal digits. -/
def digitsToNat (ds : List Char) : Nat :=
  ds.foldl (fun a c => a * 10 + (c.toNat - 48)) 0

/-- Apply a trailing exponent part (`e`/`E`, optional sign, digits) of a
numeric token to the mantissa value, as `float()` does. -/
def applyExp (q : ℚ) (r : List Char) : ℚ :=
  match r with
  | c :: s =>
    if c == 'e' || c == 'E' then
      match s with
      | k :: s2 =>
        if k == '-' then q / 10 ^ digitsToNat (s2.takeWhile Char.isDigit)
        else if k == '+' then q * 10 ^ digitsToNat (s2.takeWhile Char.isDigit)
        else q * 10 ^ digitsToNat (s.takeWhile Char.isDigit)
      | [] => q
    else q
  | [] => q

/-- Exact value of an unsigned numeric token: integer digits, optional
fractional digits, optional exponent.  (`mkRat n 1` is the embedding of a
natural number into `ℚ`, kept free of the unary `Nat.cast` recursion so
that concrete values evaluate.) -/
def tokValPos (t : List Char) : ℚ :=
  let d1 := t.takeWhile Char.isDigit
  let r1 := t.dropWhile Char.isDigit
  match r1 with
  | '.' :: r2 =>
    applyExp (mkRat (digitsToNat d1) 1 + mkRat (digitsToNat (r2.takeWhile Char.isDigit)) 1
        / 10 ^ (r2.takeWhile Char.isDigit).length)
      (r2.dropWhile Char.isDigit)
  | _ => applyExp (mkRat (digitsToNat d1) 1) r1

/-- Python `float(tok)` on a token matched by `_NUM_RE`, as an exact
rational. -/
def tokVal (t : List Char) : ℚ :=
  match t with
  | '-' :: r => -(tokValPos r)
  | '+' :: r => tokValPos r
  | _ => tokValPos t

/-- `_join_line_continuations`, i.e. the substitution
`re.sub(r'\\\s*\n\s*', '', s)`.  At a backslash the regex consumes the
whole maximal whitespace run that follows provided it contains a newline
(the greedy `\s*` pieces absorb the run on both sides of the `\n` the
engine settles on); otherwise the backslash is kept and scanning moves
on.  Fuel-recursive; `fuel = cs.length` suffices. -/
def joinContAux : Nat → List Char → List Char
  | 0, _ => []
  | _, [] => []
  | fuel + 1, c :: rest =>
    if c == '\\' && (rest.takeWhile isPySpace).contains '\n' then
      joinContAux fuel (rest.dropWhile isPySpace)
    else
      c :: joinContAux fuel rest

/-- `_join_line_continuations(s)` for a character list. -/
def joinCont (cs : List Char) : List Char :=
  joinContAux cs.length cs

/-- Consume one expected literal character of `_PATTERN`. -/
def expectChar (c : Char) (cs : List Char) : Option (List Char) :=
  match cs with
  | x :: r => if x = c then some r else none
  | [] => none

/-- Drop a greedy `\s*` of `_PATTERN` (with `re.DOTALL`, `\s` still means
whitespace). -/
def dropWs (cs : List Char) : List Char :=
  cs.dropWhile isPySpace

/-- The name group `\s*([^"]+)\s*"` of `_PATTERN`, entered just after the
opening quote.  The region up to the next quote is found; the greedy
leading `\s*` strips its leading whitespace from the capture (when the
region is all whitespace the engine backtracks `\s*` one step and the
greedy group captures the final whitespace character). -/
def nameCapture (cs : List Char) : Option (List Char × List Char) :=
  let reg := cs.takeWhile (fun c => !(c == '"'))
  let rest := cs.dropWhile (fun c => !(c == '"'))
  match rest with
  | '"' :: r =>
    if reg = [] then none
    else
      let n := reg.dropWhile isPySpace
      if n = [] then some ([reg.getLastD ' '], r) else some (n, r)
  | _ => none

/-- An array group `\s*([^{}]*)\}` of `_PATTERN`, entered just after its
opening brace: greedy `\s*`, then the greedy brace-free capture, then the
closing brace. -/
def arrayCapture (cs : List Char) : Option (List Char × List Char) :=
  let cs1 := dropWs cs
  let g := cs1.takeWhile (fun c => !(c == '{') && !(c == '}'))
  let r := cs1.dropWhile (fun c => !(c == '{') && !(c == '}'))
  match r with
  | '}' :: r2 => some (g, r2)
  | _ => none

/-- The three-array tail of `_PATTERN`,
`\s*\{\s*\{\s*([^{}]*)\}\s*,\s*\{\s*([^{}]*)\}\s*,\s*\{\s*([^{}]*)\}\s*\}\s*\)`,
matched at the head of `cs` (entered just after the `->`): returns the
three captured groups and the rest of the input after the match. -/
def patMatchArrays (cs : List Char) :
    Option (List Char × List Char × List Char × List Char) :=
  Option.bind (expectChar '{' (dropWs cs)) fun r7 =>
  Option.bind (expectChar '{' (dropWs r7)) fun r9 =>
  Option.bind (arrayCapture r9) fun p2 =>
  Option.bind (expectChar ',' (dropWs p2.2)) fun r11 =>
  Option.bind (expectChar '{' (dropWs r11)) fun r12 =>
  Option.bind (arrayCapture r12) fun p3 =>
  Option.bind (expectChar ',' (dropWs p3.2)) fun r14 =>
  Option.bind (expectChar '{' (dropWs r14)) fun r15 =>
  Option.bind (arrayCapture r15) fun p4 =>
  Option.bind (expectChar '}' (dropWs p4.2)) fun r17 =>
  Option.bind (expectChar ')' (dropWs r17)) fun r18 =>
  some (p2.1, p3.1, p4.1, r18)

/-- One anchored match of the whole `_PATTERN` at the head of `cs`:
the `\("\s*([^"]+)\s*"\s*->` head, then the three-array tail. -/
def patMatchAt (cs : List Char) :
    Option (List Char × List Char × List Char × List Char × List Char) :=
  Option.bind (expectChar '(' cs) fun r0 =>
  Option.bind (expectChar '"' r0) fun r1 =>
  Option.bind (nameCapture r1) fun p1 =>
  Option.bind (expectChar '-' (dropWs p1.2)) fun r4 =>
  Option.bind (expectChar '>' r4) fun r5 =>
  Option.bind (patMatchArrays r5) fun p2 =>
  some (p1.1, p2.1, p2.2.1, p2.2.2.1, p2.2.2.2)

/-- `_PATTERN.finditer`: scan left to right, emit each non-overlapping
match and continue after it, otherwise advance one character.
Fuel-recursive; `fuel = cs.length` suffices since a match is non-empty. -/
def findParenAux : Nat → List Char →
    List (List Char × List Char × List Char × List Char)
  | 0, _ => []
  | _, [] => []
  | fuel + 1, cs =>
    match patMatchAt cs with
    | some (nm, a1, a2, a3, r) => (nm, a1, a2, a3) :: findParenAux fuel r
    | none =>
      match cs with
      | [] => []
      | _ :: rest => findParenAux fuel rest

/-- The in-memory component triple of one BPM. -/
structure Triple where
  x : List ℚ
  y : List ℚ
  z : List ℚ
deriving Repr, DecidableEq

/-- The shared dataset model: BPM name to component triple.  Python dicts
are modelled as association lists with unique keys, keeping first-insertion
order. -/
abbrev Dataset := List (String × Triple)

/-- Insert with dict semantics: an existing key keeps its position and gets
the new value, a new key is appended. -/
def insertReplace (d : Dataset) (name : String) (t : Triple) : Dataset :=
  match d with
  | [] => [(name, t)]
  | (n, u) :: rest =>
    if n = name then (n, t) :: rest else (n, u) :: insertReplace rest name t

/-- Keys of a dataset, in insertion order. -/
def keysOf (d : Dataset) : List String :=
  d.map (fun e => e.1)

/-- First-match association lookup. -/
def lookupD (d : Dataset) (name : String) : Option Triple :=
  match d with
  | [] => none
  | (n, t) :: rest => if n = name then some t else lookupD rest name

namespace BPMDataParen

/-- `BPMDataParen.from_file` on the file text: join the line
continuations, find every `_PATTERN` match, and for each match store the
`_NUM_RE` values of the three array bodies under the captured name. -/
def from_text (s : String) : Dataset :=
  let t := joinCont s.data
  (findParenAux t.length t).foldl
    (fun d m =>
      insertReplace d (String.mk m.1)
        ⟨(findNums m.2.1).map tokVal, (findNums m.2.2.1).map tokVal,
          (findNums m.2.2.2).map tokVal⟩)
    []

end BPMDataParen

/-- Lexicographic comparison of character lists by code point, which is
how Python compares strings. -/
def lexLe : List Char → List Char → Bool
  | [], _ => true
  | _ :: _, [] => false
  | a :: as, b :: bs => if a < b then true else if b < a then false else lexLe as bs

/-- `a <= b` for Python strings. -/
def strLe (a b : String) : Bool :=
  lexLe a.data b.data

/-- `list_bpms`: `sorted(self._data.keys())`, shared by both handlers.
Python sorts strings lexicographically by code point; its sort is
stable, but stability is irrelevant here since dataset keys are
unique. -/
def list_bpms (d : Dataset) : List String :=
  List.insertionSort (fun a b => strLe a b = true) (keysOf d)

/-- Python `str.strip()` with no argument: drop leading and trailing
whitespace. -/
def pyStrip (cs : List Char) : List Char :=
  ((cs.dropWhile isPySpace).reverse.dropWhile isPySpace).reverse

/-- `component.lower().strip()` as both `get` methods compute it. -/
def normComp (component : String) : String :=
  String.mk (pyStrip (component.data.map Char.toLower))

/-- A single-quote character, kept out of string literals. -/
def sq : String :=
  String.mk [Char.ofNat 39]

/-- The `ValueError` message both `get` methods raise on a bad component
selector: `component must be 'x', 'y', or 'z'`. -/
def valueErrMsg : String :=
  "component must be " ++ sq ++ "x" ++ sq ++ ", " ++ sq ++ "y" ++ sq ++ ", or " ++ sq ++ "z" ++ sq

/-- The `KeyError` message `BPMDataSDDS.get` raises on an unknown BPM:
`BPM '<bpm>' not found. Available: <sorted names, comma-joined>`. -/
def notFoundMsg (bpm : String) (names : List String) : String :=
  "BPM " ++ sq ++ bpm ++ sq ++ " not found. Available: " ++ String.intercalate ", " names

namespace BPMDataParen

/-- `BPMDataParen.get`: validate the component selector, then index the
dict directly — `self._data[bpm][comp]`.  A missing BPM raises a plain
`KeyError(bpm)` (no custom message), modelled as an error carrying just
the key. -/
def get (d : Dataset) (bpm component : String) : Except String (List ℚ) :=
  let comp := normComp component
  if comp = "x" ∨ comp = "y" ∨ comp = "z" then
    match lookupD d bpm with
    | none => Except.error bpm
    | some t => Except.ok (if comp = "x" then t.x else if comp = "y" then t.y else t.z)
  else Except.error valueErrMsg

end BPMDataParen

namespace BPMDataSDDS

/-- `s.split(None, 2)` on an already-stripped line: at most three
whitespace-delimited fields, the third being the unsplit remainder; `none`
when there are fewer than three fields (the reader skips such lines). -/
def splitNone2 (cs : List Char) : Option (List Char × List Char × List Char) :=
  let c0 := cs.dropWhile isPySpace
  let t1 := c0.takeWhile (fun c => !(isPySpace c))
  let c1 := (c0.dropWhile (fun c => !(isPySpace c))).dropWhile isPySpace
  let t2 := c1.takeWhile (fun c => !(isPySpace c))
  let rest := (c1.dropWhile (fun c => !(isPySpace c))).dropWhile isPySpace
  if t1 = [] ∨ t2 = [] ∨ rest = [] then none else some (t1, t2, rest)

/-- The per-BPM accumulator of `BPMDataSDDS.from_file`: name, collected x
numbers, collected y numbers, in dict insertion order. -/
abbrev Acc := List (String × List ℚ × List ℚ)

/-- `acc[name][comp].extend(nums)`, creating `{"x": [], "y": []}` first
when the name is new. -/
def extendComp (acc : Acc) (name : String) (isX : Bool) (nums : List ℚ) : Acc :=
  match acc with
  | [] => [(name, if isX then (nums, ([] : List ℚ)) else (([] : List ℚ), nums))]
  | (n, xs, ys) :: rest =>
    if n = name then (n, if isX then (xs ++ nums, ys) else (xs, ys ++ nums)) :: rest
    else (n, xs, ys) :: extendComp rest name isX nums

/-- One iteration of the line loop of `BPMDataSDDS.from_file`: strip,
skip blanks and `#` comments, split into plane tag / name / payload, keep
only plane tags `0` and `1`, tokenize the payload with `_NUM_RE`, skip
lines with no numbers, and extend the accumulator. -/
def accLine (acc : Acc) (raw : List Char) : Acc :=
  if pyStrip raw = [] then acc
  else if (pyStrip raw).head? = some '#' then acc
  else
    match splitNone2 (pyStrip raw) with
    | none => acc
    | some (n, name, payload) =>
      if n = ['0'] ∨ n = ['1'] then
        if (findNums payload).map tokVal = [] then acc
        else extendComp acc (String.mk name) (n == ['0']) ((findNums payload).map tokVal)
      else acc

/-- The plane tag a raw line contributes under the reader's line model:
`some n` when the line survives every skip (blank, comment, too few
fields, bad tag, no numeric tokens) and feeds the accumulator with tag
`n`, `none` when it is ignored.  Mirrors the branch structure of
`accLine`. -/
def linePlane (raw : List Char) : Option (List Char) :=
  if pyStrip raw = [] then none
  else if (pyStrip raw).head? = some '#' then none
  else
    match splitNone2 (pyStrip raw) with
    | none => none
    | some (n, _, payload) =>
      if n = ['0'] ∨ n = ['1'] then
        if (findNums payload).map tokVal = [] then none else some n
      else none

/-- The post-processing of `BPMDataSDDS.from_file` for one accumulated
BPM: mirror a missing x (resp. y) as zeros of the other length, then
synthesize `z = zeros_like(x)`.  The second test uses the already-mirrored
x, exactly as the code does. -/
def finalizeEntry (xs ys : List ℚ) : Triple :=
  let x1 := if xs = [] ∧ ys ≠ [] then List.replicate ys.length (0 : ℚ) else xs
  let y1 := if ys = [] ∧ x1 ≠ [] then List.replicate x1.length (0 : ℚ) else ys
  ⟨x1, y1, List.replicate x1.length (0 : ℚ)⟩

/-- The full accumulator of `BPMDataSDDS.from_file` after the line loop
(splitlines modelled on newline; `str.strip` removes any `\r` left by
CRLF endings). -/
def accOf (s : String) : Acc :=
  (s.data.splitOn '\n').foldl accLine []

/-- `BPMDataSDDS.from_file` on the file text: run the line loop, then the
mirroring and z-synthesis post-processing on every accumulated BPM. -/
def from_text (s : String) : Dataset :=
  (accOf s).map (fun e => (e.1, finalizeEntry e.2.1 e.2.2))

/-- `BPMDataSDDS.get`: validate the component selector, then raise a
`KeyError` whose message lists all loaded BPM names (sorted) when the
BPM is absent. -/
def get (d : Dataset) (bpm component : String) : Except String (List ℚ) :=
  let comp := normComp component
  if comp = "x" ∨ comp = "y" ∨ comp = "z" then
    match lookupD d bpm with
    | none => Except.error (notFoundMsg bpm (list_bpms d))
    | some t => Except.ok (if comp = "x" then t.x else if comp = "y" then t.y else t.z)
  else Except.error valueErrMsg

end BPMDataSDDS

/-- Round to the nearest integer, ties to even — the rounding of Python
number formatting. -/
def roundHalfEven (q : ℚ) : ℤ :=
  let n := ⌊q⌋
  let f := q - n
  if f < 1 / 2 then n
  else if (1 : ℚ) / 2 < f then n + 1
  else if n % 2 = 0 then n else n + 1

/-- Digit count minus one of a positive natural number (its decimal
exponent).  Fuel-recursive; `fuel = n` suffices. -/
def natLog10Aux : Nat → Nat → Nat
  | 0, _ => 0
  | fuel + 1, n => if n < 10 then 0 else natLog10Aux fuel (n / 10) + 1

/-- Decimal exponent of `n ≥ 1`: the unique `k` with `10^k ≤ n < 10^(k+1)`. -/
def natLog10 (n : Nat) : Nat :=
  natLog10Aux n n

/-- For `0 < q < 1`, the count of leading zeros plus one: the minimal
`m ≥ 1` with `1 ≤ q * 10^m`.  Fuel-recursive; `fuel = q.den` suffices. -/
def smallExpAux : Nat → ℚ → Nat
  | 0, _ => 1
  | fuel + 1, q => if 1 ≤ q * 10 then 1 else smallExpAux fuel (q * 10) + 1

/-- Decimal exponent of a positive rational: the unique `e` with
`10^e ≤ q < 10^(e+1)`. -/
def decExp (q : ℚ) : ℤ :=
  if 1 ≤ q then (natLog10 ⌊q⌋.toNat : ℤ) else -(smallExpAux q.den q : ℤ)

/-- Decimal digits of a natural number, most significant first.
Fuel-recursive; `fuel = n + 1` suffices. -/
def natCharsAux : Nat → Nat → List Char
  | 0, _ => []
  | fuel + 1, n =>
    if n < 10 then [Char.ofNat (48 + n)]
    else natCharsAux fuel (n / 10) ++ [Char.ofNat (48 + n % 10)]

/-- Decimal rendering of a natural number. -/
def natToChars (n : Nat) : List Char :=
  natCharsAux (n + 1) n

/-- Strip trailing zero digits (the `g` format drops them, and the decimal
point when nothing is left). -/
def stripZeros (ds : List Char) : List Char :=
  (ds.reverse.dropWhile (fun c => c == '0')).reverse

/-- Exponent suffix of the `g` format in scientific form: explicit sign
and at least two digits. -/
def expChars (e : ℤ) : List Char :=
  let ds := natToChars e.natAbs
  (if e < 0 then '-' else '+') :: (if ds.length < 2 then '0' :: ds else ds)

/-- `"{:.7g}".format(v)`: round to 7 significant decimal digits
(ties to even), then render in fixed notation when the decimal exponent
`e` is in `[-4, 7)` and in scientific notation otherwise, stripping
trailing zeros.  Modelled on the exact rational; the double rounding
through binary64 that a Python float experiences before formatting is
abstracted away. -/
def pyG7 (q : ℚ) : String :=
  if q = 0 then "0"
  else
    let a := |q|
    let e0 := decExp a
    let m0 := roundHalfEven (a * (10 : ℚ) ^ ((6 : ℤ) - e0))
    let m := if m0 = 10 ^ 7 then (10 : ℤ) ^ 6 else m0
    let e := if m0 = 10 ^ 7 then e0 + 1 else e0
    let ds := natToChars m.toNat
    let body :=
      if -4 ≤ e ∧ e < 7 then
        if e < 0 then
          '0' :: '.' :: (List.replicate (e.natAbs - 1) '0' ++ stripZeros ds)
        else
          let ip := ds.take (e.toNat + 1)
          let fp := stripZeros (ds.drop (e.toNat + 1))
          if fp = [] then ip else ip ++ '.' :: fp
      else
        let fp := stripZeros (ds.drop 1)
        (ds.take 1 ++ (if fp = [] then [] else '.' :: fp)) ++ 'e' :: expChars e
    String.mk ((if q < 0 then ['-'] else []) ++ body)

/-- The default `z_fill` of `BPMDataSDDS.to_data`, the decimal literal
`0.0010580705711618066` as an exact rational. -/
def zFillDefault : ℚ :=
  10580705711618066 / 10 ^ 19

/-- The keyword configuration of `BPMDataSDDS.to_data` (the `indent`
parameter is accepted by the code but never used, and `header_lines` is
`None` throughout the claims, so neither is carried). -/
structure WCfg where
  include_z : Bool
  fmt : ℚ → String
  sep : String
  columns : Nat
  z_fill : ℚ
  scale : ℚ

/-- The default configuration of `to_data`. -/
def defaultWCfg : WCfg :=
  ⟨true, pyG7, ",", 6, zFillDefault, 1⟩

/-- Successive chunks of `k` elements (`range(0, len(vals), columns)`).
Fuel-recursive; `fuel = l.length` suffices for `k > 0`. -/
def chunksAux {α : Type} : Nat → Nat → List α → List (List α)
  | 0, _, _ => []
  | _, _, [] => []
  | fuel + 1, k, l => l.take k :: chunksAux fuel k (l.drop k)

/-- `chunksOf k l` for `k > 0`. -/
def chunksOf {α : Type} (k : Nat) (l : List α) : List (List α) :=
  chunksAux l.length k l

/-- Python `sep.join(parts)`. -/
def joinSep (sep : List Char) : List (List Char) → List Char
  | [] => []
  | [x] => x
  | x :: y :: rest => x ++ sep ++ joinSep sep (y :: rest)

namespace BPMDataSDDS

/-- `fmt_array` of `to_data`: format every value, group into `columns`
values per line joined by `sep`, and join the lines with `",\n"`; with
`columns = 0` a single `sep`-joined line.  Empty input renders as the
empty string. -/
def fmt_array (cfg : WCfg) (a : List ℚ) : List Char :=
  let vals := a.map (fun v => (cfg.fmt v).data)
  if 0 < cfg.columns then
    let lns := (chunksOf cfg.columns vals).map (fun ch => joinSep cfg.sep.data ch)
    if lns = [] then [] else joinSep [',', '\n'] lns
  else joinSep cfg.sep.data vals

/-- The per-BPM arrays `to_data` actually formats: `x` and `y` scaled, and
`z` regenerated — `np.full_like(x, z_fill) * scale` when `include_z`, else
`np.zeros_like(x)` — never the dataset's own z. -/
def writerArrays (cfg : WCfg) (t : Triple) : Triple :=
  ⟨t.x.map (fun v => v * cfg.scale),
    t.y.map (fun v => v * cfg.scale),
    if cfg.include_z then (List.replicate t.x.length cfg.z_fill).map (fun v => v * cfg.scale)
    else List.replicate t.x.length (0 : ℚ)⟩

/-- One `("<name>"->\n{{<x>},\n{<y>},\n{<z>}})` block of `to_data`: each
array is formatted with its first sample dropped (`x[1:]`, `y[1:]`,
`z[1:]`). -/
def entryFor (cfg : WCfg) (name : String) (t : Triple) : List Char :=
  let w := writerArrays cfg t
  let sx := fmt_array cfg (w.x.drop 1)
  let sy := fmt_array cfg (w.y.drop 1)
  let sz := fmt_array cfg (w.z.drop 1)
  '(' :: '"' :: (name.data ++ '"' :: '-' :: '>' :: '\n' :: '{' :: '{' ::
    (sx ++ '}' :: ',' :: '\n' :: '{' ::
      (sy ++ '}' :: ',' :: '\n' :: '{' :: (sz ++ ['}', '}', ')']))))

/-- Join the entry blocks as the writer loop does: `",\n"` after every
entry but the last, `"\n"` after the last. -/
def joinEntries : List (List Char) → List Char
  | [] => []
  | [e] => e ++ ['\n']
  | e :: e2 :: rest => e ++ ',' :: '\n' :: joinEntries (e2 :: rest)

/-- `BPMDataSDDS.to_data` with `header_lines=None`: `{`, the entries in
sorted-name order, `}`. -/
def to_data_text (cfg : WCfg) (d : Dataset) : List Char :=
  '{' :: (joinEntries ((list_bpms d).map
    (fun n => entryFor cfg n ((lookupD d n).getD ⟨[], [], []⟩))) ++ ['}'])

end BPMDataSDDS

namespace BPMDataParen

/-- The `normalize` helper of `BPMDataParen.to_sdds`: truncate to the
first `N` samples when too long, zero-pad at the end when too short,
otherwise unchanged. -/
def normalize (a : List ℚ) (N : Nat) : List ℚ :=
  if N < a.length then a.take N
  else if a.length < N then a ++ List.replicate (N - a.length) (0 : ℚ)
  else a

end BPMDataParen

/-- Sorted copy of a rational list (insertion sort), shared by the
numpy order statistics below. -/
def insertQ (v : ℚ) : List ℚ → List ℚ
  | [] => [v]
  | w :: rest => if v ≤ w then v :: w :: rest else w :: insertQ v rest

/-- Sorted copy of a rational list. -/
def sortQ (l : List ℚ) : List ℚ :=
  l.foldr insertQ []

/-- `np.min` (none on empty input; the stats code never reaches that
case). -/
def npMin (l : List ℚ) : Option ℚ :=
  (sortQ l).head?

/-- `np.max`. -/
def npMax (l : List ℚ) : Option ℚ :=
  (sortQ l).getLast?

/-- `np.median`: middle element of the sorted data, or the mean of the two
middle elements for even length. -/
def npMedian (l : List ℚ) : Option ℚ :=
  let s := sortQ l
  let n := s.length
  if n = 0 then none
  else if n % 2 = 1 then some (s.getD (n / 2) 0)
  else some ((s.getD (n / 2 - 1) 0 + s.getD (n / 2) 0) / 2)

/-- `np.percentile` with the default linear-interpolation definition:
virtual index `h = (n-1)·p/100`, result `s[⌊h⌋] + (h-⌊h⌋)·(s[⌊h⌋+1] -
s[⌊h⌋])` on the sorted data. -/
def npPercentile (l : List ℚ) (p : ℚ) : Option ℚ :=
  let s := sortQ l
  let n := s.length
  if n = 0 then none
  else
    let h := ((n : ℚ) - 1) * p / 100
    let i := ⌊h⌋.toNat
    let lo := s.getD i 0
    let hi := s.getD (i + 1) lo
    some (lo + (h - ⌊h⌋) * (hi - lo))

/-- One row of `summary_stats` (identical helper in both handlers),
except for the `std` column which is real-valued and modelled separately
(`stats_std`): an empty component reports `n=0` and every other field
undefined (`np.nan`, modelled as `none`); a non-empty component reports
count, mean, min, max, median and the requested percentiles. -/
structure StatsRow where
  n : Nat
  mean : Option ℚ
  min : Option ℚ
  max : Option ℚ
  median : Option ℚ
  pcts : List (ℚ × Option ℚ)
deriving Repr, DecidableEq

/-- `stats_for(arr)` minus the `std` column. -/
def stats_for (percentiles : List ℚ) (arr : List ℚ) : StatsRow :=
  if arr = [] then
    ⟨0, none, none, none, none, percentiles.map (fun p => (p, none))⟩
  else
    ⟨arr.length, some (arr.sum / arr.length), npMin arr, npMax arr, npMedian arr,
      percentiles.map (fun p => (p, npPercentile arr p))⟩

/-- The `std` column of `stats_for`: `np.nan` (`none`) on empty input,
`float(np.std(arr, ddof=1))` — the square root of the squared deviations
from the mean divided by `N - 1` — when there is more than one sample, and
`0.0` otherwise.  Real-valued, hence kept separate from the computable
columns. -/
noncomputable def stats_std (arr : List ℚ) : Option ℝ :=
  if arr = [] then none
  else if 1 < arr.length then
    some (Real.sqrt
      ((arr.map (fun v => ((v : ℝ) - (arr.sum : ℝ) / (arr.length : ℝ)) ^ 2)).sum
        / ((arr.length : ℝ) - 1)))
  else some 0

/-- Substring test (used to state what an error message does *not*
mention). -/
def containsSub (needle : List Char) : List Char → Bool
  | [] => needle.isEmpty
  | c :: rest => needle.isPrefixOf (c :: rest) || containsSub needle rest

/-! ## Helper lemmas -/

theorem normalize_length (a : List ℚ) (N : Nat) :
    (BPMDataParen.normalize a N).length = N := by
  unfold BPMDataParen.normalize
  split_ifs with h1 h2
  · simp [List.length_take]
    omega
  · simp
    omega
  · omega

theorem normalize_of_length_eq (a : List ℚ) (N : Nat) (h : a.length = N) :
    BPMDataParen.normalize a N = a := by
  unfold BPMDataParen.normalize
  split_ifs with h1 h2
  all_goals first | omega | rfl

theorem lexLe_total : ∀ a b : List Char, lexLe a b = true ∨ lexLe b a = true := by
  intro a
  induction a with
  | nil =>
    intro b
    left
    rfl
  | cons c as ih =>
    intro b
    cases b with
    | nil =>
      right
      rfl
    | cons d bs =>
      by_cases h1 : c < d
      · left
        simp [lexLe, h1]
      by_cases h2 : d < c
      · right
        simp [lexLe, h2]
      rcases ih bs with h | h
      · left
        simp [lexLe, h1, h2, h]
      · right
        simp [lexLe, h1, h2, h]

theorem lexLe_trans : ∀ a b c : List Char,
    lexLe a b = true → lexLe b c = true → lexLe a c = true := by
  intro a
  induction a with
  | nil =>
    intro b c _ _
    rfl
  | cons x as ih =>
    intro b c hab hbc
    cases b with
    | nil => simp [lexLe] at hab
    | cons y bs =>
      cases c with
      | nil => simp [lexLe] at hbc
      | cons z cs =>
        simp only [lexLe] at hab hbc ⊢
        by_cases h1 : x < y
        · by_cases h2 : y < z
          · rw [if_pos (lt_trans h1 h2)]
          · by_cases h3 : z < y
            · rw [if_neg h2, if_pos h3] at hbc
              exact absurd hbc (by simp)
            · have hyz : y = z := le_antisymm (not_lt.mp h3) (not_lt.mp h2)
              subst hyz
              rw [if_pos h1]
        · by_cases h4 : y < x
          · rw [if_neg h1, if_pos h4] at hab
            exact absurd hab (by simp)
          · have hxy : x = y := le_antisymm (not_lt.mp h4) (not_lt.mp h1)
            subst hxy
            rw [if_neg h1, if_neg h4] at hab
            by_cases h2 : x < z
            · rw [if_pos h2]
            · by_cases h3 : z < x
              · rw [if_neg h2, if_pos h3] at hbc
                exact absurd hbc (by simp)
              · have hxz : x = z := le_antisymm (not_lt.mp h3) (not_lt.mp h2)
                subst hxz
                rw [if_neg h2, if_neg h3] at hbc ⊢
                exact ih bs cs hab hbc

theorem dropWhile_length_le {α : Type} (p : α → Bool) (l : List α) :
    (l.dropWhile p).length ≤ l.length :=
  (List.dropWhile_sublist p).length_le

theorem joinContAux_fuel : ∀ (f g : Nat) (cs : List Char), cs.length ≤ f → cs.length ≤ g →
    joinContAux f cs = joinContAux g cs := by
  intro f
  induction f with
  | zero =>
    intro g cs hf hg
    have : cs = [] := List.eq_nil_of_length_eq_zero (Nat.le_zero.mp hf)
    subst this
    cases g <;> rfl
  | succ f ih =>
    intro g cs hf hg
    cases cs with
    | nil => cases g <;> rfl
    | cons c rest =>
      cases g with
      | zero => simp at hg
      | succ g =>
        simp only [joinContAux]
        split
        · exact ih g (rest.dropWhile isPySpace)
            (Nat.le_trans (dropWhile_length_le _ _) (by simpa using hf))
            (Nat.le_trans (dropWhile_length_le _ _) (by simpa using hg))
        · rw [ih g rest (by simpa using hf) (by simpa using hg)]

theorem joinCont_cons (c : Char) (rest : List Char) :
    joinCont (c :: rest) =
      if c == '\\' && (rest.takeWhile isPySpace).contains '\n' then
        joinCont (rest.dropWhile isPySpace)
      else c :: joinCont rest := by
  unfold joinCont
  simp only [List.length_cons, joinContAux]
  split
  · exact joinContAux_fuel _ _ _ (dropWhile_length_le _ _) (le_refl _)
  · rfl

theorem tw_dw_append_of_ends {p : Char → Bool} (A B : List Char)
    (hA : ∃ x ∈ A, p x = false) :
    (A ++ B).takeWhile p = A.takeWhile p ∧ (A ++ B).dropWhile p = A.dropWhile p ++ B := by
  induction A with
  | nil =>
    obtain ⟨x, hx, _⟩ := hA
    simp at hx
  | cons a A2 ih =>
    by_cases hpa : p a = true
    · have hA2 : ∃ x ∈ A2, p x = false := by
        obtain ⟨x, hx, hpx⟩ := hA
        rcases List.mem_cons.mp hx with rfl | hx2
        · rw [hpa] at hpx
          simp at hpx
        · exact ⟨x, hx2, hpx⟩
      obtain ⟨h1, h2⟩ := ih hA2
      constructor
      · simp [List.takeWhile_cons, hpa, h1]
      · simp [List.dropWhile_cons, hpa, h2]
    · rw [Bool.not_eq_true] at hpa
      constructor
      · simp [List.takeWhile_cons, hpa]
      · simp [List.dropWhile_cons, hpa]

theorem dropWhile_concat_ends {p : Char → Bool} (A : List Char) (c : Char)
    (hc : p c = false) :
    ∃ A2, (A ++ [c]).dropWhile p = A2 ++ [c] := by
  induction A with
  | nil => exact ⟨[], by simp [List.dropWhile_cons, hc]⟩
  | cons a A2 ih =>
    by_cases hpa : p a = true
    · obtain ⟨A3, h3⟩ := ih
      exact ⟨A3, by simpa [List.dropWhile_cons, hpa] using h3⟩
    · rw [Bool.not_eq_true] at hpa
      exact ⟨a :: A2, by simp [List.dropWhile_cons, hpa]⟩

theorem joinCont_append_of_ends : ∀ (n : Nat) (A B A1 : List Char) (c : Char),
    A = A1 ++ [c] → isPySpace c = false → (c == '\\') = false → A.length ≤ n →
    joinCont (A ++ B) = joinCont A ++ joinCont B := by
  intro n
  induction n with
  | zero =>
    intro A B A1 c hA hc1 hc2 hn
    subst hA
    simp at hn
  | succ n ih =>
    intro A B A1 c hA hc1 hc2 hn
    subst hA
    cases A1 with
    | nil =>
      simp only [List.nil_append, List.cons_append, List.singleton_append]
      rw [joinCont_cons, joinCont_cons]
      rw [hc2]
      simp only [Bool.false_and, if_false]
      rfl
    | cons a A2 =>
      have hends : ∃ x ∈ A2 ++ [c], isPySpace x = false := ⟨c, by simp, hc1⟩
      obtain ⟨htw, hdw⟩ := tw_dw_append_of_ends (A2 ++ [c]) B hends
      simp only [List.cons_append, List.append_assoc] at *
      rw [joinCont_cons, joinCont_cons, htw]
      split
      · rw [hdw]
        obtain ⟨A3, h3⟩ := dropWhile_concat_ends A2 c hc1
        have hlen : (List.dropWhile isPySpace (A2 ++ [c])).length ≤ n := by
          have h1 := dropWhile_length_le isPySpace (A2 ++ [c])
          simp only [List.length_append, List.length_cons, List.length_singleton] at *
          omega
        exact ih _ B A3 c h3 hc1 hc2 hlen
      · have hre : A2 ++ c :: ([] ++ B) = (A2 ++ [c]) ++ B := by simp
        rw [hre, ih (A2 ++ [c]) B A2 c rfl hc1 hc2 (by simp at hn ⊢; omega)]
        rfl

theorem digit_not_ws (c : Char) (h : c.isDigit = true) : isPySpace c = false := by
  unfold isPySpace
  simp only [Bool.or_eq_false_iff, beq_eq_false_iff_ne, ne_eq]
  refine ⟨⟨⟨⟨⟨?_, ?_⟩, ?_⟩, ?_⟩, ?_⟩, ?_⟩
  all_goals intro he
  all_goals subst he
  all_goals exact absurd h (by decide)

theorem digit_not_backslash (c : Char) (h : c.isDigit = true) : (c == '\\') = false := by
  simp only [beq_eq_false_iff_ne, ne_eq]
  intro he
  subst he
  exact absurd h (by decide)

theorem append_right_ne_nil {α : Type} {a b : List α} (h : b ≠ []) : a ++ b ≠ [] := by
  intro hc
  exact h (List.append_eq_nil.mp hc).2

theorem extendComp_entry_inv (acc : BPMDataSDDS.Acc) (name : String) (isX : Bool)
    (nums : List ℚ) (hn : nums ≠ [])
    (h : ∀ e ∈ acc, e.2.1 ≠ [] ∨ e.2.2 ≠ []) :
    ∀ e ∈ BPMDataSDDS.extendComp acc name isX nums, e.2.1 ≠ [] ∨ e.2.2 ≠ [] := by
  induction acc with
  | nil =>
    intro e he
    unfold BPMDataSDDS.extendComp at he
    simp only [List.mem_singleton] at he
    subst he
    cases isX
    · right
      simpa using hn
    · left
      simpa using hn
  | cons f rest ih =>
    intro e he
    obtain ⟨n, xs, ys⟩ := f
    unfold BPMDataSDDS.extendComp at he
    by_cases hnn : n = name
    · rw [if_pos hnn] at he
      rcases List.mem_cons.mp he with rfl | hmem
      · cases isX
        · right
          simpa using append_right_ne_nil hn
        · left
          simpa using append_right_ne_nil hn
      · exact h _ (List.mem_cons_of_mem _ hmem)
    · rw [if_neg hnn] at he
      rcases List.mem_cons.mp he with rfl | hmem
      · exact h _ (List.mem_cons_self _ _)
      · exact ih (fun e he => h e (List.mem_cons_of_mem _ he)) e hmem

theorem accLine_inv (acc : BPMDataSDDS.Acc) (raw : List Char)
    (h : ∀ e ∈ acc, e.2.1 ≠ [] ∨ e.2.2 ≠ []) :
    ∀ e ∈ BPMDataSDDS.accLine acc raw, e.2.1 ≠ [] ∨ e.2.2 ≠ [] := by
  unfold BPMDataSDDS.accLine
  split_ifs with h1 h2
  · exact h
  · exact h
  · split
    · exact h
    · split_ifs with h3 h4
      · exact h
      · exact extendComp_entry_inv acc _ _ _ h4 h
      · exact h

theorem foldl_accLine_inv (lines : List (List Char)) (acc : BPMDataSDDS.Acc)
    (h : ∀ e ∈ acc, e.2.1 ≠ [] ∨ e.2.2 ≠ []) :
    ∀ e ∈ lines.foldl BPMDataSDDS.accLine acc, e.2.1 ≠ [] ∨ e.2.2 ≠ [] := by
  induction lines generalizing acc with
  | nil => exact h
  | cons l ls ih => exact ih _ (accLine_inv acc l h)

theorem finalizeEntry_inv (xs ys : List ℚ) (hinv : xs ≠ [] ∨ ys ≠ []) :
    (BPMDataSDDS.finalizeEntry xs ys).x ≠ [] ∧ (BPMDataSDDS.finalizeEntry xs ys).y ≠ [] ∧
      (BPMDataSDDS.finalizeEntry xs ys).z.length =
        (BPMDataSDDS.finalizeEntry xs ys).x.length := by
  by_cases h1 : xs = []
  · have h2 : ys ≠ [] := by tauto
    have hl : ys.length ≠ 0 := by
      have := List.length_pos_of_ne_nil h2
      omega
    simp [BPMDataSDDS.finalizeEntry, h1, h2, hl]
  · by_cases h2 : ys = []
    · have hl : xs.length ≠ 0 := by
        have := List.length_pos_of_ne_nil h1
        omega
      simp [BPMDataSDDS.finalizeEntry, h1, h2, hl]
    · simp [BPMDataSDDS.finalizeEntry, h1, h2]

theorem extendComp_ys_nil (acc : BPMDataSDDS.Acc) (name : String) (nums : List ℚ)
    (h : ∀ e ∈ acc, e.2.2 = []) :
    ∀ e ∈ BPMDataSDDS.extendComp acc name true nums, e.2.2 = [] := by
  induction acc with
  | nil =>
    intro e he
    unfold BPMDataSDDS.extendComp at he
    simp only [List.mem_singleton] at he
    subst he
    simp
  | cons f rest ih =>
    intro e he
    obtain ⟨n, xs, ys⟩ := f
    unfold BPMDataSDDS.extendComp at he
    by_cases hnn : n = name
    · rw [if_pos hnn] at he
      rcases List.mem_cons.mp he with rfl | hmem
      · simpa using h _ (List.mem_cons_self _ _)
      · exact h _ (List.mem_cons_of_mem _ hmem)
    · rw [if_neg hnn] at he
      rcases List.mem_cons.mp he with rfl | hmem
      · exact h _ (List.mem_cons_self _ _)
      · exact ih (fun e he => h e (List.mem_cons_of_mem _ he)) e hmem

theorem accLine_ys_nil (acc : BPMDataSDDS.Acc) (raw : List Char)
    (hp : BPMDataSDDS.linePlane raw ≠ some ['1'])
    (h : ∀ e ∈ acc, e.2.2 = []) :
    ∀ e ∈ BPMDataSDDS.accLine acc raw, e.2.2 = [] := by
  unfold BPMDataSDDS.linePlane at hp
  unfold BPMDataSDDS.accLine
  split_ifs with h1 h2
  · exact h
  · exact h
  · rw [if_neg h1, if_neg h2] at hp
    split
    · exact h
    · rename_i n nm payload heq
      simp only [heq] at hp
      split_ifs with h3 h4
      · exact h
      · rw [if_pos h3, if_neg h4] at hp
        have hn : n = ['0'] := by
          rcases h3 with h0 | h0
          · exact h0
          · exact absurd (by rw [h0]) hp
        subst hn
        have hb : (['0'] == ['0']) = true := by decide
        rw [hb]
        exact extendComp_ys_nil acc _ _ h
      · exact h

theorem foldl_accLine_ys_nil (lines : List (List Char)) (acc : BPMDataSDDS.Acc)
    (hp : ∀ raw ∈ lines, BPMDataSDDS.linePlane raw ≠ some ['1'])
    (h : ∀ e ∈ acc, e.2.2 = []) :
    ∀ e ∈ lines.foldl BPMDataSDDS.accLine acc, e.2.2 = [] := by
  induction lines generalizing acc with
  | nil => exact h
  | cons l ls ih =>
    exact ih _ (fun raw hr => hp raw (List.mem_cons_of_mem _ hr))
      (accLine_ys_nil acc l (hp l (List.mem_cons_self _ _)) h)

/-! ## Claims -/

/-- C6: the row-format writer's `normalize` returns `a` unchanged when
`len(a) = N`, exactly the first `N` elements when `len(a) > N`, and `a`
padded with `N - len(a)` trailing zeros when `len(a) < N`; normalizing
twice to the same `N` equals normalizing once. -/
theorem C6_normalize_spec (a : List ℚ) (N : Nat) :
    (a.length = N → BPMDataParen.normalize a N = a) ∧
    (N < a.length → BPMDataParen.normalize a N = a.take N) ∧
    (a.length < N → BPMDataParen.normalize a N = a ++ List.replicate (N - a.length) 0) ∧
    BPMDataParen.normalize (BPMDataParen.normalize a N) N = BPMDataParen.normalize a N := by
  refine ⟨normalize_of_length_eq a N, ?_, ?_, ?_⟩
  · intro h
    unfold BPMDataParen.normalize
    split_ifs
    all_goals first | omega | rfl
  · intro h
    unfold BPMDataParen.normalize
    split_ifs
    all_goals first | omega | rfl
  · exact normalize_of_length_eq _ N (normalize_length a N)

/-- C6 witness: truncation at a concrete input. -/
theorem C6_normalize_spec_witness :
    2 < ([1, 2, 3] : List ℚ).length ∧
      BPMDataParen.normalize [1, 2, 3] 2 = ([1, 2, 3] : List ℚ).take 2 :=
  ⟨by decide, (C6_normalize_spec [1, 2, 3] 2).2.1 (by decide)⟩

/-- C4: the z array used by the paren writer is never the dataset's
stored z — the written entry does not depend on it — and equals the
constant `z_fill`-filled array of x's length scaled by `scale` when z is
included, and the zero-filled array of x's length when it is excluded. -/
theorem C4_z_override (cfg : WCfg) (name : String) (t : Triple) (z1 z2 : List ℚ) :
    (BPMDataSDDS.entryFor cfg name ⟨t.x, t.y, z1⟩ =
      BPMDataSDDS.entryFor cfg name ⟨t.x, t.y, z2⟩) ∧
    ((BPMDataSDDS.writerArrays cfg t).z =
      if cfg.include_z then List.replicate t.x.length (cfg.z_fill * cfg.scale)
      else List.replicate t.x.length 0) := by
  constructor
  · rfl
  · unfold BPMDataSDDS.writerArrays
    split_ifs with h
    · simp [List.map_replicate]
    · simp [List.map_replicate]

/-- C7 (amended): on the row-format handler, `get` with a valid component
selector and an unknown BPM name fails with the not-found error whose
message enumerates all currently loaded BPM names, sorted (the enumerated
list is a sorted permutation of the dataset's keys).  The paren handler,
by contrast, raises a bare `KeyError` carrying only the requested key
(see the counterexample). -/
theorem C7_unknown_bpm_amended (d : Dataset) (bpm component : String)
    (hc : normComp component = "x" ∨ normComp component = "y" ∨ normComp component = "z")
    (hb : lookupD d bpm = none) :
    BPMDataSDDS.get d bpm component =
      Except.error ("BPM " ++ sq ++ bpm ++ sq ++ " not found. Available: "
        ++ String.intercalate ", " (list_bpms d)) ∧
    (list_bpms d).Perm (keysOf d) ∧
    (list_bpms d).Sorted (fun a b => strLe a b = true) := by
  haveI : IsTotal String (fun a b => strLe a b = true) :=
    ⟨fun a b => lexLe_total a.data b.data⟩
  haveI : IsTrans String (fun a b => strLe a b = true) :=
    ⟨fun a b c => lexLe_trans a.data b.data c.data⟩
  refine ⟨?_, List.perm_insertionSort _ _, List.sorted_insertionSort _ _⟩
  unfold BPMDataSDDS.get
  rw [if_pos hc, hb]
  simp [notFoundMsg]

/-- C7 witness: a concrete unknown-BPM lookup, with the names enumerated
in sorted order even though they were loaded in the other order. -/
theorem C7_unknown_bpm_witness :
    BPMDataSDDS.get [("B", ⟨[1], [2], [3]⟩), ("A", ⟨[4], [5], [6]⟩)] "C" " X " =
      Except.error ("BPM " ++ sq ++ "C" ++ sq ++ " not found. Available: A, B") := by
  have h := (C7_unknown_bpm_amended [("B", ⟨[1], [2], [3]⟩), ("A", ⟨[4], [5], [6]⟩)] "C" " X "
    (by decide) (by decide)).1
  rw [h]
  decide

/-- C7 counterexample: the claim fails for the paren handler, whose `get`
indexes the dict directly — the error for an unknown BPM carries only the
requested key and does not mention the loaded BPM names `A` and `B`. -/
theorem C7_counterexample :
    BPMDataParen.get [("A", ⟨[1], [1], [1]⟩), ("B", ⟨[2], [2], [2]⟩)] "C" "x" =
      Except.error "C" ∧
    containsSub "A".data "C".data = false ∧
    containsSub "B".data "C".data = false := by
  decide

/-- C2: parsing the two row-format lines `0 BPM1 1.0 2.0 3.0` and
`1 BPM1 4.0 5.0 6.0` and writing with the paren writer (scale 1,
`include_z = false`, 6 values per column) produces exactly
`x = {2.0, 3.0}`, `y = {5.0, 6.0}`, `z = {0.0, 0.0}` for `BPM1`. -/
theorem C2_end_to_end :
    BPMDataParen.from_text (String.mk (BPMDataSDDS.to_data_text
        ⟨false, pyG7, ",", 6, zFillDefault, 1⟩
        (BPMDataSDDS.from_text "0 BPM1 1.0 2.0 3.0\n1 BPM1 4.0 5.0 6.0"))) =
      [("BPM1", ⟨[2, 3], [5, 6], [0, 0]⟩)] := by
  decide

/-- C8: the statistical summary of a zero-length component reports
`n = 0` with mean, std, min, max, median and every requested percentile
undefined (`NaN`, modelled as `none`) — and never raises, every field
being totally defined; a component of length 1 reports `std = 0`; a
component of length greater than 1 reports the sample standard deviation,
the non-negative root of the squared deviations from the mean divided by
`N - 1`. -/
theorem C8_stats_edge_cases (pcts : List ℚ) (arr : List ℚ) :
    (stats_for pcts [] = ⟨0, none, none, none, none, pcts.map (fun p => (p, none))⟩ ∧
      stats_std [] = none) ∧
    (arr.length = 1 → stats_std arr = some 0) ∧
    (1 < arr.length → ∃ s : ℝ, stats_std arr = some s ∧ 0 ≤ s ∧
      s ^ 2 = (arr.map (fun v => ((v : ℝ) - (arr.sum : ℝ) / (arr.length : ℝ)) ^ 2)).sum
        / ((arr.length : ℝ) - 1)) := by
  refine ⟨⟨rfl, rfl⟩, ?_, ?_⟩
  · intro h
    have hne : arr ≠ [] := by
      intro he
      rw [he] at h
      simp at h
    unfold stats_std
    rw [if_neg hne, if_neg (by omega)]
  · intro h
    have hne : arr ≠ [] := by
      intro he
      rw [he] at h
      simp at h
    have hsum : 0 ≤ (arr.map (fun v => ((v : ℝ) - (arr.sum : ℝ) / (arr.length : ℝ)) ^ 2)).sum :=
      List.sum_nonneg (by
        intro x hx
        obtain ⟨v, _, rfl⟩ := List.mem_map.mp hx
        positivity)
    have hden : (0 : ℝ) ≤ (arr.length : ℝ) - 1 := by
      have : (2 : ℝ) ≤ (arr.length : ℝ) := by exact_mod_cast h
      linarith
    refine ⟨_, ?_, Real.sqrt_nonneg _, Real.sq_sqrt (div_nonneg hsum hden)⟩
    unfold stats_std
    rw [if_neg hne, if_pos h]

/-- C10: every BPM present in a row-reader dataset has a non-empty x, a
non-empty y, and a z of x's length — a BPM only enters the accumulator
through a data line contributing at least one numeric token, and the
mirroring step fills whichever of x and y is empty. -/
theorem C10_row_reader_invariant (t : String) (name : String) (tr : Triple)
    (h : (name, tr) ∈ BPMDataSDDS.from_text t) :
    tr.x ≠ [] ∧ tr.y ≠ [] ∧ tr.z.length = tr.x.length := by
  unfold BPMDataSDDS.from_text at h
  obtain ⟨e, hmem, heq⟩ := List.mem_map.mp h
  obtain ⟨n, xs, ys⟩ := e
  have hinv := foldl_accLine_inv _ [] (by simp) _ hmem
  simp only [Prod.mk.injEq] at heq
  obtain ⟨rfl, rfl⟩ := heq
  simp only at hinv
  exact finalizeEntry_inv xs ys hinv

/-- C10 witness: a one-line input gives `BPM A` the triple
`([1, 2], [0, 0], [0, 0])`, which satisfies the invariant. -/
theorem C10_row_reader_invariant_witness :
    ([(1 : ℚ), 2] ≠ []) ∧ ([(0 : ℚ), 0] ≠ []) ∧
      ([(0 : ℚ), 0].length = [(1 : ℚ), 2].length) :=
  C10_row_reader_invariant "0 A 1 2" "A" ⟨[1, 2], [0, 0], [0, 0]⟩
    (by decide)

/-- C5: for every BPM accumulated by the row reader, if exactly one of
the accumulated x/y sequences is non-empty the other is mirrored as a
zero-filled array of the same length; z is always zero-filled to the
(possibly mirrored) x's length; and an input whose lines never contribute
to plane 1 yields y and z both zero-filled to x's length. -/
theorem C5_mirroring_and_z (t : String) (name : String) (xs ys : List ℚ)
    (h : (name, xs, ys) ∈ BPMDataSDDS.accOf t) :
    ((name, BPMDataSDDS.finalizeEntry xs ys) ∈ BPMDataSDDS.from_text t) ∧
    (xs ≠ [] ∧ ys = [] → BPMDataSDDS.finalizeEntry xs ys =
      ⟨xs, List.replicate xs.length 0, List.replicate xs.length 0⟩) ∧
    (xs = [] ∧ ys ≠ [] → BPMDataSDDS.finalizeEntry xs ys =
      ⟨List.replicate ys.length 0, ys, List.replicate ys.length 0⟩) ∧
    ((BPMDataSDDS.finalizeEntry xs ys).z =
      List.replicate (BPMDataSDDS.finalizeEntry xs ys).x.length 0) ∧
    ((∀ raw ∈ t.data.splitOn '\n', BPMDataSDDS.linePlane raw ≠ some ['1']) →
      (BPMDataSDDS.finalizeEntry xs ys).y =
        List.replicate (BPMDataSDDS.finalizeEntry xs ys).x.length 0 ∧
      (BPMDataSDDS.finalizeEntry xs ys).z =
        List.replicate (BPMDataSDDS.finalizeEntry xs ys).x.length 0) := by
  refine ⟨?_, ?_, ?_, ?_, ?_⟩
  · unfold BPMDataSDDS.from_text
    exact List.mem_map.mpr ⟨(name, xs, ys), h, rfl⟩
  · intro hxy
    simp [BPMDataSDDS.finalizeEntry, hxy.1, hxy.2]
  · intro hxy
    have hl : ys.length ≠ 0 := by
      have := List.length_pos_of_ne_nil hxy.2
      omega
    simp [BPMDataSDDS.finalizeEntry, hxy.1, hxy.2, hl]
  · simp [BPMDataSDDS.finalizeEntry]
  · intro hp
    have hys : ys = [] := foldl_accLine_ys_nil _ [] hp (by simp) _ h
    have hinv := foldl_accLine_inv _ [] (by simp) _ h
    simp only at hinv
    have hxs : xs ≠ [] := by
      subst hys
      tauto
    subst hys
    simp [BPMDataSDDS.finalizeEntry, hxs]

/-- C5 witness: a plane-0-only input mirrors y and synthesizes z, both
zero-filled to x's length. -/
theorem C5_mirroring_and_z_witness :
    BPMDataSDDS.finalizeEntry [(1 : ℚ), 2] [] =
      ⟨[1, 2], List.replicate 2 0, List.replicate 2 0⟩ := by
  have h := (C5_mirroring_and_z "0 A 1 2" "A" [1, 2] []
    (by decide)).2.1 ⟨by decide, rfl⟩
  rw [h]
  rfl

/-- C9: paren-format parsing of a file in which a numeric literal is
split by a backslash followed by a newline (and any surrounding
whitespace) yields exactly the same dataset as parsing the file with the
literal unsplit. -/
theorem C9_line_continuation (pre d1 w d2 suf : List Char)
    (hd1 : d1 ≠ [] ∧ ∀ ch ∈ d1, ch.isDigit = true)
    (hd2 : d2 ≠ [] ∧ ∀ ch ∈ d2, ch.isDigit = true)
    (hw : (∀ ch ∈ w, isPySpace ch = true) ∧ '\n' ∈ w) :
    BPMDataParen.from_text (String.mk (pre ++ d1 ++ '\\' :: (w ++ (d2 ++ suf)))) =
      BPMDataParen.from_text (String.mk (pre ++ d1 ++ (d2 ++ suf))) := by
  obtain ⟨hne, hdig⟩ := hd1
  rcases List.eq_nil_or_concat d1 with rfl | ⟨d1h, c, rfl⟩
  · exact absurd rfl hne
  rw [List.concat_eq_append] at *
  have hc : c.isDigit = true := hdig c (by simp)
  have hcw : isPySpace c = false := digit_not_ws c hc
  have hcb : (c == '\\') = false := digit_not_backslash c hc
  obtain ⟨dh, d2t, rfl⟩ : ∃ dh d2t, d2 = dh :: d2t := by
    cases d2 with
    | nil => exact absurd rfl hd2.1
    | cons a b => exact ⟨a, b, rfl⟩
  have hdh : isPySpace dh = false := digit_not_ws dh (hd2.2 dh (by simp))
  have hsplit : ∀ B, joinCont (pre ++ (d1h ++ [c]) ++ B) =
      joinCont (pre ++ (d1h ++ [c])) ++ joinCont B := by
    intro B
    have hshape : pre ++ (d1h ++ [c]) = (pre ++ d1h) ++ [c] := by simp
    exact joinCont_append_of_ends (pre ++ (d1h ++ [c])).length _ B (pre ++ d1h) c
      hshape hcw hcb (le_refl _)
  have hmid : joinCont ('\\' :: (w ++ (dh :: d2t ++ suf))) =
      joinCont (dh :: d2t ++ suf) := by
    rw [joinCont_cons]
    have htw : (w ++ (dh :: d2t ++ suf)).takeWhile isPySpace = w := by
      rw [List.takeWhile_append_of_pos hw.1]
      simp [List.takeWhile_cons, hdh]
    have hdw : (w ++ (dh :: d2t ++ suf)).dropWhile isPySpace = dh :: d2t ++ suf := by
      rw [List.dropWhile_append_of_pos hw.1]
      simp [List.dropWhile_cons, hdh]
    rw [htw, hdw]
    have hcont : w.contains '\n' = true := List.elem_iff.mpr hw.2
    have hcond : ('\\' == '\\' && w.contains '\n') = true := by
      rw [hcont]
      decide
    rw [hcond]
    simp
  unfold BPMDataParen.from_text
  have hdata : ∀ l : List Char, (String.mk l).data = l := fun l => rfl
  rw [hdata, hdata, hsplit, hsplit, hmid]

/-- C9 witness: inside a paren entry, `12` + backslash + newline + `345`
parses identically to `12345`. -/
theorem C9_line_continuation_witness :
    BPMDataParen.from_text (String.mk ("(\"B\"->\x7b\x7b".data ++ "12".data ++
        '\\' :: ("\n".data ++ ("345".data ++ ",6\x7d,\x7b7\x7d,\x7b8\x7d\x7d)".data)))) =
      BPMDataParen.from_text (String.mk ("(\"B\"->\x7b\x7b".data ++ "12".data ++
        ("345".data ++ ",6\x7d,\x7b7\x7d,\x7b8\x7d\x7d)".data))) ∧
    BPMDataParen.from_text (String.mk ("(\"B\"->\x7b\x7b".data ++ "12".data ++
        ("345".data ++ ",6\x7d,\x7b7\x7d,\x7b8\x7d\x7d)".data))) =
      [("B", ⟨[12345, 6], [7], [8]⟩)] :=
  ⟨C9_line_continuation "(\"B\"->\x7b\x7b".data "12".data "\n".data "345".data
      ",6\x7d,\x7b7\x7d,\x7b8\x7d\x7d)".data
      ⟨by decide, by decide⟩ ⟨by decide, by decide⟩ ⟨by decide, by decide⟩,
    by decide⟩

/-- C8 witness: the sample standard deviation of `{0, 2, 4}` (mean 2,
squared deviations 4, 0, 4, divided by `N - 1 = 2`) is `2`. -/
theorem C8_stats_witness :
    stats_std [(0 : ℚ), 2, 4] = some 2 := by
  obtain ⟨s, hs, hnn, hsq⟩ := (C8_stats_edge_cases [] [0, 2, 4]).2.2 (by decide)
  have h4 : s ^ 2 = 4 := by
    rw [hsq]
    norm_num
  have h2 : s = 2 := by nlinarith
  rw [hs, h2]

end BPMData

namespace BPMData

/-- A non-empty run of decimal digits. -/
def IsDigits (ds : List Char) : Prop :=
  ds ≠ [] ∧ ∀ c ∈ ds, c.isDigit = true

/-- The shape of every numeric token the writer emits. -/
def NumShape (t : List Char) : Prop :=
  ∃ sgn ip fp ex,
    t = sgn ++ ip ++ fp ++ ex ∧
    (sgn = [] ∨ sgn = ['-']) ∧
    IsDigits ip ∧
    (fp = [] ∨ ∃ ds, IsDigits ds ∧ fp = '.' :: ds) ∧
    (ex = [] ∨ ∃ s ds, (s = '+' ∨ s = '-') ∧ IsDigits ds ∧ ex = 'e' :: s :: ds)

/-- A separator character at which every scanner component stops. -/
def SepOk (c : Char) : Prop :=
  c = ',' ∨ c = '\n'

/-- Suffix whose head, if any, is a separator. -/
def SepHead (r : List Char) : Prop :=
  r = [] ∨ ∃ c r2, r = c :: r2 ∧ SepOk c

theorem digits_take_drop (ds X : List Char) (hds : ∀ c ∈ ds, c.isDigit = true)
    (hX : ∀ c r, X = c :: r → c.isDigit = false) :
    (ds ++ X).takeWhile Char.isDigit = ds ∧ (ds ++ X).dropWhile Char.isDigit = X := by
  constructor
  · rw [List.takeWhile_append_of_pos hds]
    cases X with
    | nil => simp
    | cons c r => simp [List.takeWhile_cons, hX c r rfl]
  · rw [List.dropWhile_append_of_pos hds]
    cases X with
    | nil => simp
    | cons c r => simp [List.dropWhile_cons, hX c r rfl]

theorem sepOk_not_digit {c : Char} (h : SepOk c) : c.isDigit = false := by
  rcases h with rfl | rfl <;> decide

theorem sepHead_headND {fp ex r : List Char}
    (hfp : fp = [] ∨ ∃ ds, IsDigits ds ∧ fp = '.' :: ds)
    (hex : ex = [] ∨ ∃ s ds, (s = '+' ∨ s = '-') ∧ IsDigits ds ∧ ex = 'e' :: s :: ds)
    (hr : SepHead r) :
    ∀ c r2, fp ++ (ex ++ r) = c :: r2 → c.isDigit = false := by
  intro c r2 heq
  rcases hfp with rfl | ⟨ds, hds, rfl⟩
  · simp only [List.nil_append] at heq
    rcases hex with rfl | ⟨s, ds, hs, hds, rfl⟩
    · simp only [List.nil_append] at heq
      rcases hr with rfl | ⟨c2, r3, rfl, hsep⟩
      · simp at heq
      · obtain ⟨rfl, _⟩ := List.cons.inj heq
        exact sepOk_not_digit hsep
    · obtain ⟨rfl, _⟩ := List.cons.inj heq
      decide
  · obtain ⟨rfl, _⟩ := List.cons.inj heq
    decide

theorem exHead_headND {ex r : List Char}
    (hex : ex = [] ∨ ∃ s ds, (s = '+' ∨ s = '-') ∧ IsDigits ds ∧ ex = 'e' :: s :: ds)
    (hr : SepHead r) :
    ∀ c r2, ex ++ r = c :: r2 → c.isDigit = false := by
  intro c r2 heq
  rcases hex with rfl | ⟨s, ds, hs, hds, rfl⟩
  · simp only [List.nil_append] at heq
    rcases hr with rfl | ⟨c2, r3, rfl, hsep⟩
    · simp at heq
    · obtain ⟨rfl, _⟩ := List.cons.inj heq
      exact sepOk_not_digit hsep
  · obtain ⟨rfl, _⟩ := List.cons.inj heq
    decide

theorem sepHead_headND_r {r : List Char} (hr : SepHead r) :
    ∀ c r2, r = c :: r2 → c.isDigit = false := by
  intro c r2 heq
  rcases hr with rfl | ⟨c2, r3, rfl, hsep⟩
  · simp at heq
  · obtain ⟨rfl, _⟩ := List.cons.inj heq
    exact sepOk_not_digit hsep

end BPMData

namespace BPMData

theorem mantissa_shape_nofp (ip ex r : List Char) (hip : IsDigits ip)
    (hex : ex = [] ∨ ∃ s ds, (s = '+' ∨ s = '-') ∧ IsDigits ds ∧ ex = 'e' :: s :: ds)
    (hr : SepHead r) :
    mantissa (ip ++ (ex ++ r)) = some (ip, ex ++ r) := by
  have hnd : ∀ c r2, ex ++ r = c :: r2 → c.isDigit = false := exHead_headND hex hr
  obtain ⟨htw, hdw⟩ := digits_take_drop ip (ex ++ r) hip.2 hnd
  have hdot : ∀ r2, ex ++ r ≠ '.' :: r2 := by
    intro r2 heq
    rcases hex with rfl | ⟨s, ds, hs, hds, rfl⟩
    · rcases hr with rfl | ⟨c2, r3, rfl, hsep⟩
      · simp at heq
      · obtain ⟨he, _⟩ := List.cons.inj heq
        rcases hsep with rfl | rfl <;> simp at he
    · obtain ⟨he, _⟩ := List.cons.inj heq
      simp at he
  simp only [mantissa]
  rw [htw, hdw]
  split
  · rename_i r2 heq
    exact absurd heq (hdot r2)
  · simp [hip.1]

theorem mantissa_shape_fp (ip ds ex r : List Char) (hip : IsDigits ip) (hds : IsDigits ds)
    (hex : ex = [] ∨ ∃ s ds2, (s = '+' ∨ s = '-') ∧ IsDigits ds2 ∧ ex = 'e' :: s :: ds2)
    (hr : SepHead r) :
    mantissa (ip ++ ('.' :: ds ++ (ex ++ r))) = some (ip ++ '.' :: ds, ex ++ r) := by
  have hnd : ∀ c r2, '.' :: ds ++ (ex ++ r) = c :: r2 → c.isDigit = false := by
    intro c r2 heq
    obtain ⟨he, _⟩ := List.cons.inj heq
    subst he
    decide
  obtain ⟨htw, hdw⟩ := digits_take_drop ip ('.' :: ds ++ (ex ++ r)) hip.2 hnd
  obtain ⟨htw2, hdw2⟩ := digits_take_drop ds (ex ++ r) hds.2 (exHead_headND hex hr)
  simp only [mantissa]
  rw [htw, hdw]
  split
  · rename_i r2 heq
    simp only [List.cons_append] at heq
    obtain ⟨-, he2⟩ := List.cons.inj heq
    subst he2
    rw [htw2, hdw2]
    rw [if_neg hds.1]
  · rename_i hno
    exact absurd rfl (hno (ds ++ (ex ++ r)))

end BPMData

namespace BPMData

theorem expPart_none (r : List Char) (hr : SepHead r) : expPart r = ([], r) := by
  rcases hr with rfl | ⟨c, r2, rfl, hsep⟩
  · rfl
  · have hce : (c == 'e' || c == 'E') = false := by
      rcases hsep with rfl | rfl <;> decide
    simp only [expPart, hce]
    simp

theorem expPart_shape (s : Char) (ds r : List Char) (hs : s = '+' ∨ s = '-')
    (hds : IsDigits ds) (hr : SepHead r) :
    expPart ('e' :: s :: (ds ++ r)) = ('e' :: s :: ds, r) := by
  obtain ⟨htw, hdw⟩ := digits_take_drop ds r hds.2 (sepHead_headND_r hr)
  have hss : (s == '+' || s == '-') = true := by
    rcases hs with rfl | rfl <;> decide
  simp only [expPart, hss, if_true]
  rw [htw, hdw]
  simp [hds.1]

theorem numToken_shape (t r : List Char) (ht : NumShape t) (hr : SepHead r) :
    numToken (t ++ r) = some (t, r) := by
  obtain ⟨sgn, ip, fp, ex, rfl, hsgn, hip, hfp, hex⟩ := ht
  have hmain : mantissa (ip ++ fp ++ ex ++ r) = some (ip ++ fp, ex ++ r) := by
    rcases hfp with rfl | ⟨ds, hds, rfl⟩
    · simpa using mantissa_shape_nofp ip ex r hip hex hr
    · simpa [List.append_assoc] using mantissa_shape_fp ip ds ex r hip hds hex hr
  have hexp : expPart (ex ++ r) = (ex, r) := by
    rcases hex with rfl | ⟨s2, ds2, hs2, hds2, rfl⟩
    · simpa using expPart_none r hr
    · simpa [List.append_assoc] using expPart_shape s2 ds2 r hs2 hds2 hr
  obtain ⟨iph, ipt, rfl⟩ : ∃ iph ipt, ip = iph :: ipt := by
    cases ip with
    | nil => exact absurd rfl hip.1
    | cons a b => exact ⟨a, b, rfl⟩
  have hiphd : iph.isDigit = true := hip.2 iph (by simp)
  have hiphs : (iph == '+' || iph == '-') = false := by
    by_contra hc
    rw [Bool.not_eq_false, Bool.or_eq_true] at hc
    rcases hc with hc | hc
    · rw [beq_iff_eq] at hc
      subst hc
      simp at hiphd
    · rw [beq_iff_eq] at hc
      subst hc
      simp at hiphd
  rcases hsgn with rfl | rfl
  · simp only [List.nil_append, List.cons_append]
    simp only [numToken, hiphs, Bool.false_eq_true, if_false]
    simp only [List.cons_append, List.append_assoc] at hmain ⊢
    rw [hmain]
    simp [hexp]
  · simp only [List.cons_append, List.singleton_append, List.nil_append]
    have hminus : ('-' == '+' || '-' == '-') = true := by decide
    simp only [numToken, hminus, if_true]
    simp only [List.cons_append, List.append_assoc] at hmain ⊢
    rw [hmain]
    simp [hexp]

end BPMData

namespace BPMData

theorem mantissa_sep (c : Char) (X : List Char) (h2 : c.isDigit = false) (h3 : c ≠ '.') :
    mantissa (c :: X) = none := by
  simp only [mantissa, List.takeWhile_cons, h2, Bool.false_eq_true, if_false,
    List.dropWhile_cons]
  split
  · rename_i r2 heq
    obtain ⟨he, -⟩ := List.cons.inj heq
    exact absurd he h3
  · simp

theorem numToken_sep (c : Char) (X : List Char) (hc : SepOk c) :
    numToken (c :: X) = none := by
  have h1 : (c == '+' || c == '-') = false := by
    rcases hc with rfl | rfl <;> decide
  have h3 : c ≠ '.' := by
    rcases hc with rfl | rfl <;> decide
  have hm := mantissa_sep c X (sepOk_not_digit hc) h3
  simp only [numToken, h1, Bool.false_eq_true, if_false, hm]

theorem mantissa_split (cs m r : List Char) (h : mantissa cs = some (m, r)) :
    cs = m ++ r ∧ m ≠ [] := by
  have hsplit := List.takeWhile_append_dropWhile Char.isDigit cs
  simp only [mantissa] at h
  revert h
  split
  · rename_i r2 heq
    intro h
    split_ifs at h with h1 h2
    · obtain ⟨he1, he2⟩ := Prod.mk.inj (Option.some.inj h)
      subst he1
      subst he2
      exact ⟨hsplit.symm, h2⟩
    · obtain ⟨he1, he2⟩ := Prod.mk.inj (Option.some.inj h)
      have hr2 := List.takeWhile_append_dropWhile Char.isDigit r2
      constructor
      · rw [← hsplit, heq, ← he1, ← he2]
        simp [hr2]
      · rw [← he1]
        simp
  · rename_i hne
    intro h
    split_ifs at h with h1
    obtain ⟨he1, he2⟩ := Prod.mk.inj (Option.some.inj h)
    subst he1
    subst he2
    exact ⟨hsplit.symm, h1⟩

theorem expPart_split (cs : List Char) : cs = (expPart cs).1 ++ (expPart cs).2 := by
  cases cs with
  | nil => rfl
  | cons c r =>
    by_cases h1 : (c == 'e' || c == 'E') = true
    · cases r with
      | nil => simp [expPart, h1]
      | cons s r2 =>
        by_cases h2 : (s == '+' || s == '-') = true
        · by_cases h3 : r2.takeWhile Char.isDigit = []
          · simp [expPart, h1, h2, h3]
          · simp [expPart, h1, h2, h3, List.takeWhile_append_dropWhile]
        · by_cases h3 : (s :: r2).takeWhile Char.isDigit = []
          · simp [expPart, h1, h2, h3]
          · simp [expPart, h1, h2, h3, List.takeWhile_append_dropWhile]
    · simp [expPart, h1]

end BPMData

namespace BPMData

theorem numToken_split (cs t r : List Char) (h : numToken cs = some (t, r)) :
    cs = t ++ r ∧ t ≠ [] := by
  simp only [numToken] at h
  revert h
  split
  · intro h
    simp at h
  · rename_i c cr
    split_ifs with h1
    · intro h
      revert h
      split
      · intro h
        simp at h
      · rename_i m r2 hm
        intro h
        obtain ⟨hm1, hm2⟩ := mantissa_split cr m r2 hm
        have he := expPart_split r2
        obtain ⟨he1, he2⟩ := Prod.mk.inj (Option.some.inj h)
        subst he1
        subst he2
        constructor
        · rw [hm1]
          conv_lhs => rw [he]
          simp
        · simp
    · intro h
      revert h
      split
      · intro h
        simp at h
      · rename_i m r2 hm
        intro h
        obtain ⟨hm1, hm2⟩ := mantissa_split (c :: cr) m r2 hm
        have he := expPart_split r2
        obtain ⟨he1, he2⟩ := Prod.mk.inj (Option.some.inj h)
        subst he1
        subst he2
        constructor
        · rw [hm1]
          conv_lhs => rw [he]
          simp
        · intro hc
          exact hm2 (List.append_eq_nil.mp hc).1

end BPMData

namespace BPMData

theorem findNumsAux_congr (f1 : Nat) : ∀ (f2 : Nat) (cs : List Char), cs.length ≤ f1 →
    cs.length ≤ f2 → findNumsAux f1 cs = findNumsAux f2 cs := by
  induction f1 with
  | zero =>
    intro f2 cs h1 _
    have hnil : cs = [] := List.eq_nil_of_length_eq_zero (Nat.le_zero.mp h1)
    subst hnil
    cases f2 <;> rfl
  | succ f1 ih =>
    intro f2 cs h1 h2
    cases cs with
    | nil => cases f2 <;> rfl
    | cons c rest =>
      cases f2 with
      | zero => simp at h2
      | succ f2 =>
        cases htok : numToken (c :: rest) with
        | some tr =>
          obtain ⟨t, r⟩ := tr
          obtain ⟨heq, hne⟩ := numToken_split _ t r htok
          have hlen : r.length < (c :: rest).length := by
            rw [heq]
            cases t with
            | nil => exact absurd rfl hne
            | cons a as => simp; omega
          simp only [List.length_cons] at h1 h2 hlen
          simp only [findNumsAux, htok]
          rw [ih f2 r (by omega) (by omega)]
        | none =>
          simp only [List.length_cons] at h1 h2
          simp only [findNumsAux, htok]
          exact ih f2 rest (by omega) (by omega)

theorem findNums_cons_token (cs t r : List Char) (h : numToken cs = some (t, r)) :
    findNums cs = t :: findNums r := by
  obtain ⟨heq, hne⟩ := numToken_split cs t r h
  cases hcs : cs with
  | nil =>
    subst hcs
    simp [numToken] at h
  | cons c rest =>
    subst hcs
    have hlen : r.length ≤ rest.length := by
      cases t with
      | nil => exact absurd rfl hne
      | cons a as =>
        have : (c :: rest).length = (a :: as).length + r.length := by
          rw [heq]; simp; omega
        simp at this
        omega
    unfold findNums
    simp only [List.length_cons, findNumsAux, h]
    rw [findNumsAux_congr rest.length r.length r hlen (Nat.le_refl _)]

theorem findNums_skip (c : Char) (X : List Char) (h : numToken (c :: X) = none) :
    findNums (c :: X) = findNums X := by
  unfold findNums
  simp only [List.length_cons, findNumsAux, h]

end BPMData

namespace BPMData

theorem findNums_sepRun (s : List Char) (X : List Char) (hs : ∀ c ∈ s, SepOk c) :
    findNums (s ++ X) = findNums X := by
  induction s with
  | nil => rfl
  | cons c s ih =>
    have hc : SepOk c := hs c (List.mem_cons_self c s)
    rw [List.cons_append, findNums_skip c (s ++ X) (numToken_sep c (s ++ X) hc)]
    exact ih (fun d hd => hs d (List.mem_cons_of_mem c hd))

theorem findNums_token_head (t r : List Char) (ht : NumShape t) (hr : SepHead r) :
    findNums (t ++ r) = t :: findNums r :=
  findNums_cons_token _ _ _ (numToken_shape t r ht hr)

theorem findNums_join (sep : List Char) (toks : List (List Char)) (suffix : List Char)
    (ht : ∀ t ∈ toks, NumShape t) (hsep : ∀ c ∈ sep, SepOk c) (hne : sep ≠ [])
    (hsuf : SepHead suffix) :
    findNums (joinSep sep toks ++ suffix) = toks ++ findNums suffix := by
  induction toks with
  | nil => simp [joinSep]
  | cons t rest ih =>
    cases rest with
    | nil =>
      simp only [joinSep, List.cons_append, List.nil_append]
      rw [findNums_token_head t suffix (ht t (List.mem_cons_self t [])) hsuf]
    | cons t2 rest2 =>
      obtain ⟨c, s, rfl⟩ : ∃ c s, sep = c :: s := by
        cases sep with
        | nil => exact absurd rfl hne
        | cons c s => exact ⟨c, s, rfl⟩
      have hsh : SepHead ((c :: s) ++ (joinSep (c :: s) (t2 :: rest2) ++ suffix)) :=
        Or.inr ⟨c, s ++ (joinSep (c :: s) (t2 :: rest2) ++ suffix), by simp,
          hsep c (List.mem_cons_self c s)⟩
      have step : joinSep (c :: s) (t :: t2 :: rest2) ++ suffix =
          t ++ ((c :: s) ++ (joinSep (c :: s) (t2 :: rest2) ++ suffix)) := by
        simp [joinSep]
      rw [step, findNums_token_head t _ (ht t (List.mem_cons_self _ _)) hsh,
        findNums_sepRun (c :: s) _ hsep,
        ih (fun u hu => ht u (List.mem_cons_of_mem t hu))]
      rfl

theorem findNums_rows (sep : List Char) (rows : List (List (List Char))) (suffix : List Char)
    (ht : ∀ row ∈ rows, ∀ t ∈ row, NumShape t) (hsep : ∀ c ∈ sep, SepOk c) (hne : sep ≠ [])
    (hsuf : SepHead suffix) :
    findNums (joinSep [',', '\n'] (rows.map (fun r => joinSep sep r)) ++ suffix) =
      rows.flatten ++ findNums suffix := by
  induction rows with
  | nil => simp [joinSep]
  | cons row rest ih =>
    cases rest with
    | nil =>
      simp only [List.map_cons, List.map_nil, joinSep, List.join_cons, List.join_nil,
        List.append_nil]
      exact findNums_join sep row suffix (ht row (List.mem_cons_self _ _)) hsep hne hsuf
    | cons row2 rest2 =>
      have hsepOk2 : ∀ c ∈ [',', '\n'], SepOk c := by
        intro c hc
        simp only [List.mem_cons, List.not_mem_nil, or_false] at hc
        rcases hc with rfl | rfl
        · exact Or.inl rfl
        · exact Or.inr rfl
      have step : joinSep [',', '\n'] ((row :: row2 :: rest2).map (fun r => joinSep sep r)) ++
          suffix = joinSep sep row ++ (',' :: '\n' ::
            (joinSep [',', '\n'] ((row2 :: rest2).map (fun r => joinSep sep r)) ++ suffix)) := by
        simp [joinSep]
      have hsh : SepHead (',' :: '\n' ::
          (joinSep [',', '\n'] ((row2 :: rest2).map (fun r => joinSep sep r)) ++ suffix)) :=
        Or.inr ⟨',', _, rfl, Or.inl rfl⟩
      rw [step, findNums_join sep row _ (ht row (List.mem_cons_self _ _)) hsep hne hsh]
      have step2 : ',' :: '\n' ::
          (joinSep [',', '\n'] ((row2 :: rest2).map (fun r => joinSep sep r)) ++ suffix) =
          [',', '\n'] ++
            (joinSep [',', '\n'] ((row2 :: rest2).map (fun r => joinSep sep r)) ++ suffix) := rfl
      rw [step2, findNums_sepRun [',', '\n'] _ hsepOk2,
        ih (fun r hr => ht r (List.mem_cons_of_mem row hr))]
      simp

theorem chunksAux_join {α : Type} (fuel : Nat) : ∀ (k : Nat) (l : List α), 0 < k →
    l.length ≤ fuel → (chunksAux fuel k l).flatten = l := by
  induction fuel with
  | zero =>
    intro k l _ h1
    have : l = [] := List.eq_nil_of_length_eq_zero (Nat.le_zero.mp h1)
    subst this
    rfl
  | succ fuel ih =>
    intro k l hk hl
    cases l with
    | nil => rfl
    | cons a l0 =>
      have hd : ((a :: l0).drop k).length ≤ fuel := by
        simp only [List.length_drop, List.length_cons]
        simp only [List.length_cons] at hl
        omega
      simp only [chunksAux, List.flatten_cons]
      rw [ih k ((a :: l0).drop k) hk hd]
      exact List.take_append_drop k (a :: l0)

theorem chunksOf_join {α : Type} (k : Nat) (l : List α) (hk : 0 < k) :
    (chunksOf k l).flatten = l :=
  chunksAux_join l.length k l hk (Nat.le_refl _)

end BPMData

namespace BPMData

theorem findNums_fmt_array (cfg : WCfg) (a : List ℚ) (suffix : List Char)
    (hfmt : ∀ v : ℚ, NumShape ((cfg.fmt v).data))
    (hsep : ∀ c ∈ cfg.sep.data, SepOk c) (hne : cfg.sep.data ≠ [])
    (hsuf : SepHead suffix) :
    findNums (BPMDataSDDS.fmt_array cfg a ++ suffix) =
      a.map (fun v => (cfg.fmt v).data) ++ findNums suffix := by
  have hmem : ∀ t ∈ a.map (fun v => (cfg.fmt v).data), NumShape t := by
    intro t ht
    obtain ⟨v, _, rfl⟩ := List.mem_map.mp ht
    exact hfmt v
  simp only [BPMDataSDDS.fmt_array]
  by_cases hc : 0 < cfg.columns
  · simp only [hc, if_true]
    by_cases hl : (chunksOf cfg.columns (a.map (fun v => (cfg.fmt v).data))).map
        (fun ch => joinSep cfg.sep.data ch) = []
    · simp only [hl, if_true, List.nil_append]
      have hch : chunksOf cfg.columns (a.map (fun v => (cfg.fmt v).data)) = [] :=
        List.map_eq_nil_iff.mp hl
      have hv : a.map (fun v => (cfg.fmt v).data) = [] := by
        rw [← chunksOf_join cfg.columns (a.map (fun v => (cfg.fmt v).data)) hc, hch]
        rfl
      rw [hv]
      rfl
    · simp only [hl, if_false]
      have hrows := findNums_rows cfg.sep.data
        (chunksOf cfg.columns (a.map (fun v => (cfg.fmt v).data))) suffix
        (by
          intro row hrow t htok
          apply hmem
          rw [← chunksOf_join cfg.columns (a.map (fun v => (cfg.fmt v).data)) hc]
          exact List.mem_flatten.mpr ⟨row, hrow, htok⟩)
        hsep hne hsuf
      rw [hrows, chunksOf_join cfg.columns (a.map (fun v => (cfg.fmt v).data)) hc]
  · simp only [hc, if_false]
    exact findNums_join cfg.sep.data (a.map (fun v => (cfg.fmt v).data)) suffix hmem hsep hne hsuf

end BPMData

namespace BPMData

theorem fmt_array_nil (cfg : WCfg) : BPMDataSDDS.fmt_array cfg [] = [] := by
  simp only [BPMDataSDDS.fmt_array, List.map_nil]
  by_cases hc : 0 < cfg.columns
  · simp [hc, chunksOf, chunksAux]
  · simp [hc, joinSep]

theorem numShape_one : NumShape ['1'] :=
  ⟨[], ['1'], [], [], rfl, Or.inl rfl, ⟨by simp, by
    intro c hc
    simp only [List.mem_singleton] at hc
    subst hc
    rfl⟩, Or.inl rfl, Or.inl rfl⟩

/-- C3: the paren writer serialises each per-BPM array with its first
sample removed: the number of numeric tokens in each serialised array text
(`sx`, `sy`, `sz` of `entryFor`) is one less than the length of the
corresponding dataset array (`z` is regenerated from `x`, so its count
follows `x`), and an array with at most one element serialises to the
empty text. -/
theorem C3_first_sample_dropped (cfg : WCfg) (t : Triple)
    (hfmt : ∀ v : ℚ, NumShape ((cfg.fmt v).data))
    (hsep : ∀ c ∈ cfg.sep.data, SepOk c) (hne : cfg.sep.data ≠ []) :
    ((findNums (BPMDataSDDS.fmt_array cfg ((BPMDataSDDS.writerArrays cfg t).x.drop 1))).length
        = t.x.length - 1 ∧
      (findNums (BPMDataSDDS.fmt_array cfg ((BPMDataSDDS.writerArrays cfg t).y.drop 1))).length
        = t.y.length - 1 ∧
      (findNums (BPMDataSDDS.fmt_array cfg ((BPMDataSDDS.writerArrays cfg t).z.drop 1))).length
        = t.x.length - 1) ∧
    (t.x.length ≤ 1 →
      BPMDataSDDS.fmt_array cfg ((BPMDataSDDS.writerArrays cfg t).x.drop 1) = []) ∧
    (t.y.length ≤ 1 →
      BPMDataSDDS.fmt_array cfg ((BPMDataSDDS.writerArrays cfg t).y.drop 1) = []) ∧
    (t.x.length ≤ 1 →
      BPMDataSDDS.fmt_array cfg ((BPMDataSDDS.writerArrays cfg t).z.drop 1) = []) := by
  have hcount : ∀ a : List ℚ,
      (findNums (BPMDataSDDS.fmt_array cfg a)).length = a.length := by
    intro a
    have h := findNums_fmt_array cfg a [] hfmt hsep hne (Or.inl rfl)
    rw [List.append_nil] at h
    rw [h]
    simp [findNums, findNumsAux]
  have hxlen : (BPMDataSDDS.writerArrays cfg t).x.length = t.x.length := by
    simp [BPMDataSDDS.writerArrays]
  have hylen : (BPMDataSDDS.writerArrays cfg t).y.length = t.y.length := by
    simp [BPMDataSDDS.writerArrays]
  have hzlen : (BPMDataSDDS.writerArrays cfg t).z.length = t.x.length := by
    simp only [BPMDataSDDS.writerArrays]
    by_cases hz : cfg.include_z <;> simp [hz]
  refine ⟨⟨?_, ?_, ?_⟩, ?_, ?_, ?_⟩
  · rw [hcount, List.length_drop, hxlen]
  · rw [hcount, List.length_drop, hylen]
  · rw [hcount, List.length_drop, hzlen]
  · intro h
    rw [List.drop_eq_nil_of_le (by omega : (BPMDataSDDS.writerArrays cfg t).x.length ≤ 1)]
    exact fmt_array_nil cfg
  · intro h
    rw [List.drop_eq_nil_of_le (by omega : (BPMDataSDDS.writerArrays cfg t).y.length ≤ 1)]
    exact fmt_array_nil cfg
  · intro h
    rw [List.drop_eq_nil_of_le (by omega : (BPMDataSDDS.writerArrays cfg t).z.length ≤ 1)]
    exact fmt_array_nil cfg

/-- C3 witness: the claim theorem applied at a concrete configuration and dataset entry:
`x = [1, 2, 3]`, `y = [4, 5]`, `z = [9]` serialise to 2, 1 and 2 tokens,
and the one-element `y`-side of a `⟨[7], [8], []⟩` entry to the empty
text. -/
theorem C3_first_sample_dropped_witness :
    ((findNums (BPMDataSDDS.fmt_array ⟨true, fun _ => "1", ",", 2, 5, 1⟩
        ((BPMDataSDDS.writerArrays ⟨true, fun _ => "1", ",", 2, 5, 1⟩
          ⟨[1, 2, 3], [4, 5], [9]⟩).x.drop 1))).length = 2 ∧
      (findNums (BPMDataSDDS.fmt_array ⟨true, fun _ => "1", ",", 2, 5, 1⟩
        ((BPMDataSDDS.writerArrays ⟨true, fun _ => "1", ",", 2, 5, 1⟩
          ⟨[1, 2, 3], [4, 5], [9]⟩).y.drop 1))).length = 1) ∧
    BPMDataSDDS.fmt_array ⟨true, fun _ => "1", ",", 2, 5, 1⟩
      ((BPMDataSDDS.writerArrays ⟨true, fun _ => "1", ",", 2, 5, 1⟩
        ⟨[7], [8], []⟩).x.drop 1) = [] := by
  have hsep : ∀ c ∈ ("," : String).data, SepOk c := by
    intro c hc
    simp only [String.data] at hc
    simp only [List.mem_singleton] at hc
    subst hc
    exact Or.inl rfl
  have h1 := C3_first_sample_dropped ⟨true, fun _ => "1", ",", 2, 5, 1⟩
    ⟨[1, 2, 3], [4, 5], [9]⟩ (fun _ => numShape_one) hsep (by simp)
  have h2 := C3_first_sample_dropped ⟨true, fun _ => "1", ",", 2, 5, 1⟩
    ⟨[7], [8], []⟩ (fun _ => numShape_one) hsep (by simp)
  exact ⟨⟨h1.1.1, h1.1.2.1⟩, h2.2.1 (by simp)⟩

end BPMData

namespace BPMData

theorem digit_isTokChar {c : Char} (h : c.isDigit = true) : isTokChar c = true := by
  unfold isTokChar
  simp [h]

theorem numShape_chars {t : List Char} (h : NumShape t) : ∀ c ∈ t, isTokChar c = true := by
  obtain ⟨sgn, ip, fp, ex, rfl, hsgn, hip, hfp, hex⟩ := h
  intro c hc
  simp only [List.append_assoc, List.mem_append] at hc
  rcases hc with hc | hc | hc | hc
  · rcases hsgn with rfl | rfl
    · simp at hc
    · simp only [List.mem_singleton] at hc
      subst hc
      decide
  · exact digit_isTokChar (hip.2 c hc)
  · rcases hfp with rfl | ⟨ds, hds, rfl⟩
    · simp at hc
    · simp only [List.mem_cons] at hc
      rcases hc with rfl | hc
      · decide
      · exact digit_isTokChar (hds.2 c hc)
  · rcases hex with rfl | ⟨s, ds, hs, hds, rfl⟩
    · simp at hc
    · simp only [List.mem_cons] at hc
      rcases hc with rfl | hc2
      · decide
      · rcases hc2 with rfl | hc3
        · rcases hs with rfl | rfl <;> decide
        · exact digit_isTokChar (hds.2 c hc3)

theorem numShape_head {t : List Char} (h : NumShape t) :
    ∃ c r, t = c :: r ∧ isTokChar c = true := by
  obtain ⟨sgn, ip, fp, ex, rfl, hsgn, hip, hfp, hex⟩ := h
  rcases hsgn with rfl | rfl
  · obtain ⟨c, r, rfl⟩ : ∃ c r, ip = c :: r := by
      cases ip with
      | nil => exact absurd rfl hip.1
      | cons c r => exact ⟨c, r, rfl⟩
    exact ⟨c, r ++ fp ++ ex, by simp, digit_isTokChar (hip.2 c (List.mem_cons_self _ _))⟩
  · exact ⟨'-', ip ++ fp ++ ex, by simp, by decide⟩

theorem digit_not_special (c : Char) (h : c.isDigit = true) :
    (c == '{') = false ∧ (c == '}') = false ∧ (c == '"') = false := by
  refine ⟨?_, ?_, ?_⟩ <;>
    (simp only [beq_eq_false_iff_ne, ne_eq]; intro he; subst he; exact absurd h (by decide))

theorem tokChar_cases {c : Char} (h : isTokChar c = true) :
    c.isDigit = true ∨ c = '.' ∨ c = 'e' ∨ c = 'E' ∨ c = '+' ∨ c = '-' := by
  unfold isTokChar at h
  simp only [Bool.or_eq_true, beq_iff_eq] at h
  tauto

theorem tokChar_not_brace {c : Char} (h : isTokChar c = true) :
    (!(c == '{') && !(c == '}')) = true := by
  rcases tokChar_cases h with hd | rfl | rfl | rfl | rfl | rfl
  · obtain ⟨h1, h2, _⟩ := digit_not_special c hd
    simp [h1, h2]
  all_goals decide

theorem tokChar_not_quote {c : Char} (h : isTokChar c = true) : (c == '"') = false := by
  rcases tokChar_cases h with hd | rfl | rfl | rfl | rfl | rfl
  · exact (digit_not_special c hd).2.2
  all_goals decide

theorem tokChar_not_ws {c : Char} (h : isTokChar c = true) : isPySpace c = false := by
  rcases tokChar_cases h with hd | rfl | rfl | rfl | rfl | rfl
  · exact digit_not_ws c hd
  all_goals decide

theorem sepOk_not_brace {c : Char} (h : SepOk c) : (!(c == '{') && !(c == '}')) = true := by
  rcases h with rfl | rfl <;> decide

theorem sepOk_not_quote {c : Char} (h : SepOk c) : (c == '"') = false := by
  rcases h with rfl | rfl <;> decide

theorem mem_joinSep {c : Char} {sep : List Char} : ∀ {l : List (List Char)},
    c ∈ joinSep sep l → (∃ x ∈ l, c ∈ x) ∨ c ∈ sep := by
  intro l
  induction l with
  | nil =>
    intro h
    simp [joinSep] at h
  | cons x rest ih =>
    cases rest with
    | nil =>
      intro h
      exact Or.inl ⟨x, List.mem_cons_self _ _, h⟩
    | cons y rest2 =>
      intro h
      simp only [joinSep, List.append_assoc, List.mem_append] at h
      rcases h with h | h | h
      · exact Or.inl ⟨x, List.mem_cons_self _ _, h⟩
      · exact Or.inr h
      · rcases ih h with ⟨z, hz, hc⟩ | h2
        · exact Or.inl ⟨z, List.mem_cons_of_mem x hz, hc⟩
        · exact Or.inr h2

theorem joinSep_cons_front (sep : List Char) (x : List Char) (rest : List (List Char)) :
    ∃ s, joinSep sep (x :: rest) = x ++ s := by
  cases rest with
  | nil => exact ⟨[], by simp [joinSep]⟩
  | cons y r2 => exact ⟨sep ++ joinSep sep (y :: r2), by simp [joinSep]⟩

end BPMData

namespace BPMData

theorem fmt_array_chars (cfg : WCfg) (a : List ℚ)
    (hfmt : ∀ v : ℚ, NumShape ((cfg.fmt v).data))
    (hsep : ∀ c ∈ cfg.sep.data, SepOk c) :
    ∀ c ∈ BPMDataSDDS.fmt_array cfg a, isTokChar c = true ∨ SepOk c := by
  intro c hc
  have hval : ∀ tok ∈ a.map (fun v => (cfg.fmt v).data), ∀ d ∈ tok, isTokChar d = true := by
    intro tok htok d hd
    obtain ⟨v, _, rfl⟩ := List.mem_map.mp htok
    exact numShape_chars (hfmt v) d hd
  simp only [BPMDataSDDS.fmt_array] at hc
  by_cases hcol : 0 < cfg.columns
  · simp only [hcol, if_true] at hc
    by_cases hl : (chunksOf cfg.columns (a.map (fun v => (cfg.fmt v).data))).map
        (fun ch => joinSep cfg.sep.data ch) = []
    · rw [hl] at hc
      simp at hc
    · simp only [hl, if_false] at hc
      rcases mem_joinSep hc with ⟨ln, hln, hcl⟩ | hcs
      · obtain ⟨ch, hch, rfl⟩ := List.mem_map.mp hln
        rcases mem_joinSep hcl with ⟨tok, htok, hct⟩ | hcs2
        · have : tok ∈ a.map (fun v => (cfg.fmt v).data) := by
            rw [← chunksOf_join cfg.columns (a.map (fun v => (cfg.fmt v).data)) hcol]
            exact List.mem_flatten.mpr ⟨ch, hch, htok⟩
          exact Or.inl (hval tok this c hct)
        · exact Or.inr (hsep c hcs2)
      · simp only [List.mem_cons, List.not_mem_nil, or_false] at hcs
        rcases hcs with rfl | rfl
        · exact Or.inr (Or.inl rfl)
        · exact Or.inr (Or.inr rfl)
  · simp only [hcol, if_false] at hc
    rcases mem_joinSep hc with ⟨tok, htok, hct⟩ | hcs
    · exact Or.inl (hval tok htok c hct)
    · exact Or.inr (hsep c hcs)

theorem fmt_array_head (cfg : WCfg) (a : List ℚ)
    (hfmt : ∀ v : ℚ, NumShape ((cfg.fmt v).data)) :
    BPMDataSDDS.fmt_array cfg a = [] ∨
      ∃ c r, BPMDataSDDS.fmt_array cfg a = c :: r ∧ isTokChar c = true := by
  cases a with
  | nil => exact Or.inl (fmt_array_nil cfg)
  | cons v a0 =>
    obtain ⟨h0, r0, hv, htc⟩ := numShape_head (hfmt v)
    right
    simp only [BPMDataSDDS.fmt_array, List.map_cons]
    by_cases hcol : 0 < cfg.columns
    · simp only [hcol, if_true]
      obtain ⟨k0, hk⟩ : ∃ k0, cfg.columns = k0 + 1 := ⟨cfg.columns - 1, by omega⟩
      have hchunks : chunksOf cfg.columns ((cfg.fmt v).data :: a0.map (fun u => (cfg.fmt u).data))
          = ((cfg.fmt v).data :: (a0.map (fun u => (cfg.fmt u).data)).take k0) ::
            chunksAux (a0.map (fun u => (cfg.fmt u).data)).length cfg.columns
              (((cfg.fmt v).data :: a0.map (fun u => (cfg.fmt u).data)).drop cfg.columns) := by
        simp only [chunksOf, List.length_cons, chunksAux]
        rw [hk]
        simp [List.take_succ_cons]
      rw [hchunks]
      simp only [List.map_cons]
      obtain ⟨s1, hs1⟩ := joinSep_cons_front cfg.sep.data (cfg.fmt v).data
        ((a0.map (fun u => (cfg.fmt u).data)).take k0)
      obtain ⟨s2, hs2⟩ := joinSep_cons_front [',', '\n']
        (joinSep cfg.sep.data ((cfg.fmt v).data :: (a0.map (fun u => (cfg.fmt u).data)).take k0))
        ((chunksAux (a0.map (fun u => (cfg.fmt u).data)).length cfg.columns
          (((cfg.fmt v).data :: a0.map (fun u => (cfg.fmt u).data)).drop cfg.columns)).map
            (fun ch => joinSep cfg.sep.data ch))
      have hlns : ((joinSep cfg.sep.data
          ((cfg.fmt v).data :: (a0.map (fun u => (cfg.fmt u).data)).take k0)) ::
            (chunksAux (a0.map (fun u => (cfg.fmt u).data)).length cfg.columns
              (((cfg.fmt v).data :: a0.map (fun u => (cfg.fmt u).data)).drop cfg.columns)).map
                (fun ch => joinSep cfg.sep.data ch)) ≠ [] := by simp
      simp only [hlns, if_false]
      refine ⟨h0, r0 ++ s1 ++ s2, ?_, htc⟩
      rw [hs2, hs1, hv]
      simp
    · simp only [hcol, if_false]
      obtain ⟨s1, hs1⟩ := joinSep_cons_front cfg.sep.data (cfg.fmt v).data
        (a0.map (fun u => (cfg.fmt u).data))
      refine ⟨h0, r0 ++ s1, ?_, htc⟩
      rw [hs1, hv]
      simp

end BPMData

namespace BPMData

theorem expectChar_cons (c : Char) (X : List Char) : expectChar c (c :: X) = some X := by
  simp [expectChar]

theorem dropWs_cons_nonws {c : Char} (X : List Char) (h : isPySpace c = false) :
    dropWs (c :: X) = c :: X := by
  simp [dropWs, List.dropWhile_cons, h]

theorem dropWs_cons_ws {c : Char} (X : List Char) (h : isPySpace c = true) :
    dropWs (c :: X) = dropWs X := by
  simp [dropWs, List.dropWhile_cons, h]

theorem arrayCapture_append (A rest : List Char)
    (hA : ∀ c ∈ A, (!(c == '{') && !(c == '}')) = true)
    (hhead : A = [] ∨ ∃ h r2, A = h :: r2 ∧ isPySpace h = false) :
    arrayCapture (A ++ '}' :: rest) = some (A, rest) := by
  have h1 : dropWs (A ++ '}' :: rest) = A ++ '}' :: rest := by
    rcases hhead with rfl | ⟨h, r2, rfl, hh⟩
    · simp only [List.nil_append]
      exact dropWs_cons_nonws rest (by decide)
    · exact dropWs_cons_nonws _ hh
  simp only [arrayCapture, h1]
  rw [List.takeWhile_append_of_pos hA, List.dropWhile_append_of_pos hA]
  simp [List.takeWhile_cons, List.dropWhile_cons]

theorem nameCapture_append (nm rest : List Char) (hne : nm ≠ [])
    (hnm : ∀ c ∈ nm, (c == '"') = false ∧ isPySpace c = false) :
    nameCapture (nm ++ '"' :: rest) = some (nm, rest) := by
  have hq : ∀ c ∈ nm, (!(c == '"')) = true := by
    intro c hc
    simp [(hnm c hc).1]
  simp only [nameCapture]
  rw [List.takeWhile_append_of_pos hq, List.dropWhile_append_of_pos hq]
  simp only [List.takeWhile_cons, List.dropWhile_cons]
  norm_num
  have hdw : nm.dropWhile isPySpace = nm := by
    cases nm with
    | nil => rfl
    | cons c r => simp [List.dropWhile_cons, (hnm c (List.mem_cons_self _ _)).2]
  simp [hne, hdw]
  intro hall
  cases nm with
  | nil => exact absurd rfl hne
  | cons c r =>
    exact absurd (hall c (List.mem_cons_self _ _))
      (by simp [(hnm c (List.mem_cons_self _ _)).2])

end BPMData

namespace BPMData

theorem fmt_array_braceFree (cfg : WCfg) (a : List ℚ)
    (hfmt : ∀ v : ℚ, NumShape ((cfg.fmt v).data))
    (hsep : ∀ c ∈ cfg.sep.data, SepOk c) :
    ∀ c ∈ BPMDataSDDS.fmt_array cfg a, (!(c == '{') && !(c == '}')) = true := by
  intro c hc
  rcases fmt_array_chars cfg a hfmt hsep c hc with h | h
  · exact tokChar_not_brace h
  · exact sepOk_not_brace h

theorem fmt_array_headNonWs (cfg : WCfg) (a : List ℚ)
    (hfmt : ∀ v : ℚ, NumShape ((cfg.fmt v).data)) :
    BPMDataSDDS.fmt_array cfg a = [] ∨
      ∃ c r, BPMDataSDDS.fmt_array cfg a = c :: r ∧ isPySpace c = false := by
  rcases fmt_array_head cfg a hfmt with h | ⟨c, r, heq, htc⟩
  · exact Or.inl h
  · exact Or.inr ⟨c, r, heq, tokChar_not_ws htc⟩

theorem patMatchAt_entry (cfg : WCfg) (name : String) (t : Triple) (R : List Char)
    (hn : name.data ≠ [])
    (hnm : ∀ c ∈ name.data, (c == '"') = false ∧ isPySpace c = false)
    (hfmt : ∀ v : ℚ, NumShape ((cfg.fmt v).data))
    (hsep : ∀ c ∈ cfg.sep.data, SepOk c) :
    patMatchAt (BPMDataSDDS.entryFor cfg name t ++ R) =
      some (name.data,
        BPMDataSDDS.fmt_array cfg ((BPMDataSDDS.writerArrays cfg t).x.drop 1),
        BPMDataSDDS.fmt_array cfg ((BPMDataSDDS.writerArrays cfg t).y.drop 1),
        BPMDataSDDS.fmt_array cfg ((BPMDataSDDS.writerArrays cfg t).z.drop 1), R) := by
  have h1 : ∀ X : List Char, dropWs ('-' :: X) = '-' :: X := fun X =>
    dropWs_cons_nonws X (by decide)
  have h2 : ∀ X : List Char, dropWs ('\n' :: X) = dropWs X := fun X =>
    dropWs_cons_ws X (by decide)
  have h3 : ∀ X : List Char, dropWs ('{' :: X) = '{' :: X := fun X =>
    dropWs_cons_nonws X (by decide)
  have h4 : ∀ X : List Char, dropWs (',' :: X) = ',' :: X := fun X =>
    dropWs_cons_nonws X (by decide)
  have h5 : ∀ X : List Char, dropWs ('}' :: X) = '}' :: X := fun X =>
    dropWs_cons_nonws X (by decide)
  have h6 : ∀ X : List Char, dropWs (')' :: X) = ')' :: X := fun X =>
    dropWs_cons_nonws X (by decide)
  have hnc : ∀ X : List Char, nameCapture (name.data ++ '"' :: X) = some (name.data, X) :=
    fun X => nameCapture_append name.data X hn hnm
  have hcx : ∀ rest : List Char,
      arrayCapture (BPMDataSDDS.fmt_array cfg ((BPMDataSDDS.writerArrays cfg t).x.drop 1)
        ++ '}' :: rest) =
      some (BPMDataSDDS.fmt_array cfg ((BPMDataSDDS.writerArrays cfg t).x.drop 1), rest) :=
    fun rest => arrayCapture_append _ rest (fmt_array_braceFree cfg _ hfmt hsep)
      (fmt_array_headNonWs cfg _ hfmt)
  have hcy : ∀ rest : List Char,
      arrayCapture (BPMDataSDDS.fmt_array cfg ((BPMDataSDDS.writerArrays cfg t).y.drop 1)
        ++ '}' :: rest) =
      some (BPMDataSDDS.fmt_array cfg ((BPMDataSDDS.writerArrays cfg t).y.drop 1), rest) :=
    fun rest => arrayCapture_append _ rest (fmt_array_braceFree cfg _ hfmt hsep)
      (fmt_array_headNonWs cfg _ hfmt)
  have hcz : ∀ rest : List Char,
      arrayCapture (BPMDataSDDS.fmt_array cfg ((BPMDataSDDS.writerArrays cfg t).z.drop 1)
        ++ '}' :: rest) =
      some (BPMDataSDDS.fmt_array cfg ((BPMDataSDDS.writerArrays cfg t).z.drop 1), rest) :=
    fun rest => arrayCapture_append _ rest (fmt_array_braceFree cfg _ hfmt hsep)
      (fmt_array_headNonWs cfg _ hfmt)
  simp only [BPMDataSDDS.entryFor, List.cons_append, List.append_assoc]
  simp only [patMatchAt, patMatchArrays, expectChar_cons, Option.some_bind, hnc, h1, h2, h3,
    h4, h5, h6, hcx, hcy, hcz, List.nil_append]

end BPMData

namespace BPMData

theorem expectChar_length {c : Char} {cs r : List Char} (h : expectChar c cs = some r) :
    r.length < cs.length := by
  cases cs with
  | nil => simp [expectChar] at h
  | cons x X =>
    simp only [expectChar] at h
    by_cases hx : x = c
    · simp only [hx, if_true, Option.some.injEq] at h
      subst h
      simp
    · simp [hx] at h

theorem dropWs_length (cs : List Char) : (dropWs cs).length ≤ cs.length :=
  dropWhile_length_le _ _

theorem nameCapture_length {cs n r : List Char} (h : nameCapture cs = some (n, r)) :
    r.length < cs.length := by
  simp only [nameCapture] at h
  split at h
  · rename_i r2 heq
    have hlen : ('"' :: r2).length ≤ cs.length := by
      rw [← heq]
      exact dropWhile_length_le _ _
    split_ifs at h <;>
      (obtain ⟨rfl, rfl⟩ := Prod.mk.inj (Option.some.inj h); simp at hlen; omega)
  · simp at h

theorem arrayCapture_length {cs g r2 : List Char} (h : arrayCapture cs = some (g, r2)) :
    r2.length < cs.length := by
  simp only [arrayCapture] at h
  split at h
  · rename_i r3 heq
    have hlen : ('}' :: r3).length ≤ (dropWs cs).length := by
      rw [← heq]
      exact dropWhile_length_le _ _
    obtain ⟨rfl, rfl⟩ := Prod.mk.inj (Option.some.inj h)
    have := dropWs_length cs
    simp at hlen
    omega
  · simp at h

theorem patMatchArrays_length {cs : List Char} {p : List Char × List Char × List Char × List Char}
    (h : patMatchArrays cs = some p) : p.2.2.2.length < cs.length := by
  simp only [patMatchArrays] at h
  obtain ⟨r7, h7, h⟩ := Option.bind_eq_some.mp h
  obtain ⟨r9, h9, h⟩ := Option.bind_eq_some.mp h
  obtain ⟨p2, hp2, h⟩ := Option.bind_eq_some.mp h
  obtain ⟨r11, h11, h⟩ := Option.bind_eq_some.mp h
  obtain ⟨r12, h12, h⟩ := Option.bind_eq_some.mp h
  obtain ⟨p3, hp3, h⟩ := Option.bind_eq_some.mp h
  obtain ⟨r14, h14, h⟩ := Option.bind_eq_some.mp h
  obtain ⟨r15, h15, h⟩ := Option.bind_eq_some.mp h
  obtain ⟨p4, hp4, h⟩ := Option.bind_eq_some.mp h
  obtain ⟨r17, h17, h⟩ := Option.bind_eq_some.mp h
  obtain ⟨r18, h18, h⟩ := Option.bind_eq_some.mp h
  obtain rfl := Option.some.inj h
  have l7 := expectChar_length h7
  have l9 := expectChar_length h9
  have lp2 := arrayCapture_length (show arrayCapture r9 = some (p2.1, p2.2) by rw [← hp2])
  have l11 := expectChar_length h11
  have l12 := expectChar_length h12
  have lp3 := arrayCapture_length (show arrayCapture r12 = some (p3.1, p3.2) by rw [← hp3])
  have l14 := expectChar_length h14
  have l15 := expectChar_length h15
  have lp4 := arrayCapture_length (show arrayCapture r15 = some (p4.1, p4.2) by rw [← hp4])
  have l17 := expectChar_length h17
  have l18 := expectChar_length h18
  have d0 := dropWs_length cs
  have d7 := dropWs_length r7
  have d2 := dropWs_length p2.2
  have d11 := dropWs_length r11
  have d3 := dropWs_length p3.2
  have d14 := dropWs_length r14
  have d4 := dropWs_length p4.2
  have d17 := dropWs_length r17
  show r18.length < cs.length
  omega

theorem patMatchAt_length {cs : List Char}
    {p : List Char × List Char × List Char × List Char × List Char}
    (h : patMatchAt cs = some p) : p.2.2.2.2.length < cs.length := by
  simp only [patMatchAt] at h
  obtain ⟨r0, h0, h⟩ := Option.bind_eq_some.mp h
  obtain ⟨r1, h1, h⟩ := Option.bind_eq_some.mp h
  obtain ⟨p1, hp1, h⟩ := Option.bind_eq_some.mp h
  obtain ⟨r4, h4, h⟩ := Option.bind_eq_some.mp h
  obtain ⟨r5, h5, h⟩ := Option.bind_eq_some.mp h
  obtain ⟨p2, hp2, h⟩ := Option.bind_eq_some.mp h
  obtain rfl := Option.some.inj h
  have l0 := expectChar_length h0
  have l1 := expectChar_length h1
  have lp1 := nameCapture_length (show nameCapture r1 = some (p1.1, p1.2) by rw [← hp1])
  have l4 := expectChar_length h4
  have l5 := expectChar_length h5
  have lp2 := patMatchArrays_length hp2
  have d1 := dropWs_length p1.2
  show p2.2.2.2.length < cs.length
  omega

theorem patMatchAt_not_lparen {c : Char} (X : List Char) (h : ¬ c = '(') :
    patMatchAt (c :: X) = none := by
  simp only [patMatchAt, expectChar, h, if_false, Option.none_bind]

end BPMData

namespace BPMData

theorem findParenAux_congr (f1 : Nat) : ∀ (f2 : Nat) (cs : List Char), cs.length ≤ f1 →
    cs.length ≤ f2 → findParenAux f1 cs = findParenAux f2 cs := by
  induction f1 with
  | zero =>
    intro f2 cs h1 _
    have hnil : cs = [] := List.eq_nil_of_length_eq_zero (Nat.le_zero.mp h1)
    subst hnil
    cases f2 <;> rfl
  | succ f1 ih =>
    intro f2 cs h1 h2
    cases cs with
    | nil => cases f2 <;> rfl
    | cons c rest =>
      cases f2 with
      | zero => simp at h2
      | succ f2 =>
        cases htok : patMatchAt (c :: rest) with
        | some p =>
          obtain ⟨nm, a1, a2, a3, r⟩ := p
          have hlen : r.length < (c :: rest).length := patMatchAt_length htok
          simp only [List.length_cons] at h1 h2 hlen
          simp only [findParenAux, htok]
          rw [ih f2 r (by omega) (by omega)]
        | none =>
          simp only [List.length_cons] at h1 h2
          simp only [findParenAux, htok]
          exact ih f2 rest (by omega) (by omega)

theorem findParen_step (cs : List Char) (nm a1 a2 a3 r : List Char)
    (h : patMatchAt cs = some (nm, a1, a2, a3, r)) :
    findParenAux cs.length cs = (nm, a1, a2, a3) :: findParenAux r.length r := by
  cases hcs : cs with
  | nil =>
    subst hcs
    simp [patMatchAt, expectChar] at h
  | cons c rest =>
    subst hcs
    have hlen : r.length < (c :: rest).length := patMatchAt_length h
    simp only [List.length_cons] at hlen ⊢
    simp only [findParenAux, h]
    rw [findParenAux_congr rest.length r.length r (by omega) (Nat.le_refl _)]

theorem findParen_skip (c : Char) (X : List Char) (h : patMatchAt (c :: X) = none) :
    findParenAux (c :: X).length (c :: X) = findParenAux X.length X := by
  simp only [List.length_cons, findParenAux, h]

end BPMData

namespace BPMData

theorem tokChar_not_backslash {c : Char} (h : isTokChar c = true) : (c == '\\') = false := by
  rcases tokChar_cases h with hd | rfl | rfl | rfl | rfl | rfl
  · exact digit_not_backslash c hd
  all_goals decide

theorem sepOk_not_backslash {c : Char} (h : SepOk c) : (c == '\\') = false := by
  rcases h with rfl | rfl <;> decide

theorem entryFor_no_backslash (cfg : WCfg) (name : String) (t : Triple)
    (hname : ∀ c ∈ name.data, (c == '\\') = false)
    (hfmt : ∀ v : ℚ, NumShape ((cfg.fmt v).data))
    (hsep : ∀ c ∈ cfg.sep.data, SepOk c) :
    ∀ c ∈ BPMDataSDDS.entryFor cfg name t, (c == '\\') = false := by
  intro c hc
  have harr : ∀ a : List ℚ, c ∈ BPMDataSDDS.fmt_array cfg a → (c == '\\') = false := by
    intro a ha
    rcases fmt_array_chars cfg a hfmt hsep c ha with h | h
    · exact tokChar_not_backslash h
    · exact sepOk_not_backslash h
  simp only [BPMDataSDDS.entryFor, List.mem_cons, List.mem_append] at hc
  rcases hc with rfl | rfl | hc | rfl | rfl | rfl | rfl | rfl | rfl | hc | rfl | rfl | rfl |
      rfl | hc | rfl | rfl | rfl | rfl | hc | rfl | rfl | rfl | hc <;>
    first
      | exact hname c hc
      | exact harr _ hc
      | simp at hc
      | decide

end BPMData

namespace BPMData

theorem mem_joinEntries {c : Char} : ∀ {l : List (List Char)},
    c ∈ BPMDataSDDS.joinEntries l → (∃ e ∈ l, c ∈ e) ∨ c = ',' ∨ c = '\n' := by
  intro l
  induction l with
  | nil =>
    intro h
    simp [BPMDataSDDS.joinEntries] at h
  | cons e rest ih =>
    cases rest with
    | nil =>
      intro h
      simp only [BPMDataSDDS.joinEntries, List.mem_append, List.mem_singleton] at h
      rcases h with h | rfl
      · exact Or.inl ⟨e, List.mem_cons_self _ _, h⟩
      · exact Or.inr (Or.inr rfl)
    | cons e2 rest2 =>
      intro h
      simp only [BPMDataSDDS.joinEntries, List.mem_append, List.mem_cons] at h
      rcases h with h | rfl | rfl | h
      · exact Or.inl ⟨e, List.mem_cons_self _ _, h⟩
      · exact Or.inr (Or.inl rfl)
      · exact Or.inr (Or.inr rfl)
      · rcases ih h with ⟨z, hz, hc⟩ | h2
        · exact Or.inl ⟨z, List.mem_cons_of_mem e hz, hc⟩
        · exact Or.inr h2

theorem joinContAux_id (fuel : Nat) : ∀ cs : List Char, cs.length ≤ fuel →
    (∀ c ∈ cs, (c == '\\') = false) → joinContAux fuel cs = cs := by
  induction fuel with
  | zero =>
    intro cs h1 _
    have : cs = [] := List.eq_nil_of_length_eq_zero (Nat.le_zero.mp h1)
    subst this
    rfl
  | succ fuel ih =>
    intro cs h1 h2
    cases cs with
    | nil => rfl
    | cons c rest =>
      have hc : (c == '\\') = false := h2 c (List.mem_cons_self _ _)
      simp only [joinContAux, hc, Bool.false_and, Bool.false_eq_true, if_false]
      rw [ih rest (by simp at h1; omega) (fun d hd => h2 d (List.mem_cons_of_mem c hd))]

theorem joinCont_id (cs : List Char) (h : ∀ c ∈ cs, (c == '\\') = false) :
    joinCont cs = cs :=
  joinContAux_id cs.length cs (Nat.le_refl _) h

theorem to_data_text_no_backslash (cfg : WCfg) (D : Dataset)
    (hname : ∀ p ∈ D, ∀ c ∈ p.1.data, (c == '\\') = false)
    (hfmt : ∀ v : ℚ, NumShape ((cfg.fmt v).data))
    (hsep : ∀ c ∈ cfg.sep.data, SepOk c) :
    ∀ c ∈ BPMDataSDDS.to_data_text cfg D, (c == '\\') = false := by
  intro c hc
  simp only [BPMDataSDDS.to_data_text, List.mem_cons, List.mem_append,
    List.mem_singleton] at hc
  rcases hc with rfl | hc | rfl | hc2
  · decide
  · rcases mem_joinEntries hc with ⟨e, he, hce⟩ | rfl | rfl
    · obtain ⟨n, hn, rfl⟩ := List.mem_map.mp he
      have hn2 : ∀ d ∈ n.data, (d == '\\') = false := by
        intro d hd
        have hk : n ∈ keysOf D := (List.mem_insertionSort (fun a b => strLe a b = true)).mp hn
        rcases List.mem_map.mp hk with ⟨p, hp, rfl⟩
        exact hname p hp d hd
      exact entryFor_no_backslash cfg n _ hn2 hfmt hsep c hce
    · decide
    · decide
  · decide
  · simp at hc2

end BPMData

namespace BPMData

theorem findParen_rbrace : findParenAux (['}'] : List Char).length ['}'] = [] := by
  rw [findParen_skip '}' [] (patMatchAt_not_lparen [] (by decide))]
  rfl

theorem findParen_entries (cfg : WCfg) : ∀ l : List (String × Triple),
    (∀ p ∈ l, p.1.data ≠ [] ∧ ∀ c ∈ p.1.data, (c == '"') = false ∧ isPySpace c = false) →
    (∀ v : ℚ, NumShape ((cfg.fmt v).data)) →
    (∀ c ∈ cfg.sep.data, SepOk c) →
    findParenAux (BPMDataSDDS.joinEntries (l.map (fun p => BPMDataSDDS.entryFor cfg p.1 p.2))
        ++ ['}']).length
      (BPMDataSDDS.joinEntries (l.map (fun p => BPMDataSDDS.entryFor cfg p.1 p.2)) ++ ['}']) =
      l.map (fun p => (p.1.data,
        BPMDataSDDS.fmt_array cfg ((BPMDataSDDS.writerArrays cfg p.2).x.drop 1),
        BPMDataSDDS.fmt_array cfg ((BPMDataSDDS.writerArrays cfg p.2).y.drop 1),
        BPMDataSDDS.fmt_array cfg ((BPMDataSDDS.writerArrays cfg p.2).z.drop 1))) := by
  intro l
  induction l with
  | nil =>
    intro _ _ _
    simpa [BPMDataSDDS.joinEntries] using findParen_rbrace
  | cons p rest ih =>
    intro hnm hfmt hsep
    obtain ⟨hp1, hp2⟩ := hnm p (List.mem_cons_self _ _)
    cases rest with
    | nil =>
      have htext : BPMDataSDDS.joinEntries
          ((p :: []).map (fun q => BPMDataSDDS.entryFor cfg q.1 q.2)) ++ ['}'] =
          BPMDataSDDS.entryFor cfg p.1 p.2 ++ ['\n', '}'] := by
        simp [BPMDataSDDS.joinEntries]
      rw [htext, findParen_step _ _ _ _ _ _ (patMatchAt_entry cfg p.1 p.2 ['\n', '}']
        hp1 hp2 hfmt hsep)]
      rw [findParen_skip '\n' ['}'] (patMatchAt_not_lparen ['}'] (by decide))]
      rw [findParen_rbrace]
      simp
    | cons q rest2 =>
      have htext : BPMDataSDDS.joinEntries
          ((p :: q :: rest2).map (fun u => BPMDataSDDS.entryFor cfg u.1 u.2)) ++ ['}'] =
          BPMDataSDDS.entryFor cfg p.1 p.2 ++ (',' :: '\n' ::
            (BPMDataSDDS.joinEntries ((q :: rest2).map
              (fun u => BPMDataSDDS.entryFor cfg u.1 u.2)) ++ ['}'])) := by
        simp [BPMDataSDDS.joinEntries]
      rw [htext, findParen_step _ _ _ _ _ _ (patMatchAt_entry cfg p.1 p.2 _ hp1 hp2 hfmt hsep)]
      have hskip1 : findParenAux (',' :: '\n' ::
          (BPMDataSDDS.joinEntries ((q :: rest2).map
            (fun u => BPMDataSDDS.entryFor cfg u.1 u.2)) ++ ['}'])).length
          (',' :: '\n' :: (BPMDataSDDS.joinEntries ((q :: rest2).map
            (fun u => BPMDataSDDS.entryFor cfg u.1 u.2)) ++ ['}'])) =
          findParenAux (BPMDataSDDS.joinEntries ((q :: rest2).map
            (fun u => BPMDataSDDS.entryFor cfg u.1 u.2)) ++ ['}']).length
          (BPMDataSDDS.joinEntries ((q :: rest2).map
            (fun u => BPMDataSDDS.entryFor cfg u.1 u.2)) ++ ['}']) := by
        rw [findParen_skip ',' _ (patMatchAt_not_lparen _ (by decide)),
          findParen_skip '\n' _ (patMatchAt_not_lparen _ (by decide))]
      rw [hskip1, ih (fun u hu => hnm u (List.mem_cons_of_mem p hu)) hfmt hsep]
      simp

end BPMData

namespace BPMData

theorem insertReplace_fresh (d : Dataset) (name : String) (t : Triple)
    (h : name ∉ keysOf d) : insertReplace d name t = d ++ [(name, t)] := by
  induction d with
  | nil => rfl
  | cons e rest ih =>
    obtain ⟨n, u⟩ := e
    have hne : n ≠ name := by
      intro hc
      exact h (by simp [keysOf, hc])
    simp only [insertReplace, hne, if_false, List.cons_append]
    rw [ih (by intro hc; exact h (by simp [keysOf] at hc ⊢; exact Or.inr hc))]

theorem foldl_insertReplace_fresh :
    ∀ (ms : List (List Char × List Char × List Char × List Char)) (acc : Dataset),
    (ms.map (fun m => String.mk m.1)).Nodup →
    (∀ m ∈ ms, String.mk m.1 ∉ keysOf acc) →
    ms.foldl (fun d m => insertReplace d (String.mk m.1)
        ⟨(findNums m.2.1).map tokVal, (findNums m.2.2.1).map tokVal,
          (findNums m.2.2.2).map tokVal⟩) acc =
      acc ++ ms.map (fun m => (String.mk m.1,
        (⟨(findNums m.2.1).map tokVal, (findNums m.2.2.1).map tokVal,
          (findNums m.2.2.2).map tokVal⟩ : Triple))) := by
  intro ms
  induction ms with
  | nil =>
    intro acc _ _
    simp
  | cons m rest ih =>
    intro acc hnodup hfresh
    simp only [List.map_cons, List.nodup_cons] at hnodup
    simp only [List.foldl_cons, List.map_cons]
    rw [insertReplace_fresh acc (String.mk m.1) _ (hfresh m (List.mem_cons_self _ _))]
    rw [ih _ hnodup.2 ?fresh]
    · simp
    case fresh =>
      intro u hu hc
      simp only [keysOf, List.map_append, List.map_cons, List.map_nil, List.mem_append,
        List.mem_cons, List.not_mem_nil, or_false] at hc
      rcases hc with hc | hc
      · exact hfresh u (List.mem_cons_of_mem m hu) hc
      · exact hnodup.1 (by rw [← hc]; exact List.mem_map.mpr ⟨u, hu, rfl⟩)

theorem lookupD_mem {D : Dataset} {n : String} {t : Triple} (h : lookupD D n = some t) :
    (n, t) ∈ D := by
  induction D with
  | nil => simp [lookupD] at h
  | cons e rest ih =>
    obtain ⟨m, u⟩ := e
    simp only [lookupD] at h
    by_cases hm : m = n
    · subst hm
      simp only [if_true] at h
      obtain rfl := Option.some.inj h
      exact List.mem_cons_self _ _
    · simp only [hm, if_false] at h
      exact List.mem_cons_of_mem _ (ih h)

theorem lookupD_isSome_of_mem {D : Dataset} {n : String} (h : n ∈ keysOf D) :
    ∃ t, lookupD D n = some t := by
  induction D with
  | nil => simp [keysOf] at h
  | cons e rest ih =>
    obtain ⟨m, u⟩ := e
    by_cases hm : m = n
    · exact ⟨u, by simp [lookupD, hm]⟩
    · simp only [keysOf, List.map_cons, List.mem_cons] at h
      rcases h with rfl | h
      · exact absurd rfl hm
      · obtain ⟨t, ht⟩ := ih h
        exact ⟨t, by simp [lookupD, hm, ht]⟩

end BPMData

namespace BPMData

theorem findNums_fmt_array_nil (cfg : WCfg) (a : List ℚ)
    (hfmt : ∀ v : ℚ, NumShape ((cfg.fmt v).data))
    (hsep : ∀ c ∈ cfg.sep.data, SepOk c) (hne : cfg.sep.data ≠ []) :
    findNums (BPMDataSDDS.fmt_array cfg a) = a.map (fun v => (cfg.fmt v).data) := by
  have h := findNums_fmt_array cfg a [] hfmt hsep hne (Or.inl rfl)
  rw [List.append_nil] at h
  rw [h]
  simp [findNums, findNumsAux]

theorem roundTrip_triple (cfg : WCfg) (t : Triple)
    (hz : cfg.include_z = true)
    (hfmt : ∀ v : ℚ, NumShape ((cfg.fmt v).data))
    (hsep : ∀ c ∈ cfg.sep.data, SepOk c) (hsne : cfg.sep.data ≠ [])
    (hx : ∀ v ∈ t.x, tokVal ((cfg.fmt (v * cfg.scale)).data) = v * cfg.scale)
    (hy : ∀ v ∈ t.y, tokVal ((cfg.fmt (v * cfg.scale)).data) = v * cfg.scale)
    (hzf : tokVal ((cfg.fmt (cfg.z_fill * cfg.scale)).data) = cfg.z_fill * cfg.scale) :
    (findNums (BPMDataSDDS.fmt_array cfg
        ((BPMDataSDDS.writerArrays cfg t).x.drop 1))).map tokVal =
      (t.x.drop 1).map (fun v => v * cfg.scale) ∧
    (findNums (BPMDataSDDS.fmt_array cfg
        ((BPMDataSDDS.writerArrays cfg t).y.drop 1))).map tokVal =
      (t.y.drop 1).map (fun v => v * cfg.scale) ∧
    (findNums (BPMDataSDDS.fmt_array cfg
        ((BPMDataSDDS.writerArrays cfg t).z.drop 1))).map tokVal =
      List.replicate (t.x.length - 1) (cfg.z_fill * cfg.scale) := by
  have hwx : (BPMDataSDDS.writerArrays cfg t).x = t.x.map (fun v => v * cfg.scale) := rfl
  have hwy : (BPMDataSDDS.writerArrays cfg t).y = t.y.map (fun v => v * cfg.scale) := rfl
  have hwz : (BPMDataSDDS.writerArrays cfg t).z =
      List.replicate t.x.length (cfg.z_fill * cfg.scale) := by
    simp [BPMDataSDDS.writerArrays, hz, List.map_replicate]
  refine ⟨?_, ?_, ?_⟩
  · rw [findNums_fmt_array_nil cfg _ hfmt hsep hsne, hwx, List.map_map, ← List.map_drop,
      List.map_map]
    apply List.map_congr_left
    intro v hv
    exact hx v (List.mem_of_mem_drop hv)
  · rw [findNums_fmt_array_nil cfg _ hfmt hsep hsne, hwy, List.map_map, ← List.map_drop,
      List.map_map]
    apply List.map_congr_left
    intro v hv
    exact hy v (List.mem_of_mem_drop hv)
  · rw [findNums_fmt_array_nil cfg _ hfmt hsep hsne, hwz, List.map_map, List.drop_replicate,
      List.map_replicate]
    simp only [Function.comp]
    rw [hzf]

end BPMData

namespace BPMData

theorem list_bpms_nodup {D : Dataset} (h : (keysOf D).Nodup) : (list_bpms D).Nodup :=
  (List.Perm.nodup_iff (List.perm_insertionSort _ _)).mpr h

/-- C1 (amended): row-to-paren-to-row round trip, under the hypotheses
the code actually needs: the dataset has distinct BPM names whose
characters are never a quote, whitespace or a backslash; the writer is
configured with `include_z` on, a separator made of `_NUM_RE`-breaking
characters, and a formatter that emits well-formed numeric literals and is
exact on every value it is asked to write.  Then re-parsing the written
text recovers exactly the sorted BPM name set, each x and y array scaled
by the configured scale with the first sample dropped, and a z array that
is constant at `z_fill * scale` (never the original z).  Without the
exactness hypothesis the recovered values are the formatter's roundings,
not the originals, and the claimed `z = z_fill` is off by the scale
factor. -/
theorem C1_round_trip_amended (cfg : WCfg) (D : Dataset)
    (hz : cfg.include_z = true)
    (hnodup : (keysOf D).Nodup)
    (hnames : ∀ p ∈ D, p.1.data ≠ [] ∧ ∀ c ∈ p.1.data,
        (c == '"') = false ∧ isPySpace c = false ∧ (c == '\\') = false)
    (hfmt : ∀ v : ℚ, NumShape ((cfg.fmt v).data))
    (hsep : ∀ c ∈ cfg.sep.data, SepOk c) (hsne : cfg.sep.data ≠ [])
    (hexact : ∀ p ∈ D,
        (∀ v ∈ p.2.x, tokVal ((cfg.fmt (v * cfg.scale)).data) = v * cfg.scale) ∧
        (∀ v ∈ p.2.y, tokVal ((cfg.fmt (v * cfg.scale)).data) = v * cfg.scale))
    (hzexact : tokVal ((cfg.fmt (cfg.z_fill * cfg.scale)).data) = cfg.z_fill * cfg.scale) :
    BPMDataParen.from_text (String.mk (BPMDataSDDS.to_data_text cfg D)) =
      (list_bpms D).map (fun n =>
        (n, (⟨(((lookupD D n).getD ⟨[], [], []⟩).x.drop 1).map (fun v => v * cfg.scale),
             (((lookupD D n).getD ⟨[], [], []⟩).y.drop 1).map (fun v => v * cfg.scale),
             List.replicate (((lookupD D n).getD ⟨[], [], []⟩).x.length - 1)
               (cfg.z_fill * cfg.scale)⟩ : Triple))) := by
  have hback : ∀ c ∈ BPMDataSDDS.to_data_text cfg D, (c == '\\') = false :=
    to_data_text_no_backslash cfg D (fun p hp c hc => ((hnames p hp).2 c hc).2.2) hfmt hsep
  have hnames2 : ∀ p ∈ (list_bpms D).map
      (fun n => (n, (lookupD D n).getD (⟨[], [], []⟩ : Triple))),
      p.1.data ≠ [] ∧ ∀ c ∈ p.1.data, (c == '"') = false ∧ isPySpace c = false := by
    intro p hp
    obtain ⟨n, hn, rfl⟩ := List.mem_map.mp hp
    have hk : n ∈ keysOf D := (List.mem_insertionSort (fun a b => strLe a b = true)).mp hn
    obtain ⟨q, hq, rfl⟩ := List.mem_map.mp hk
    exact ⟨(hnames q hq).1,
      fun c hc => ⟨((hnames q hq).2 c hc).1, ((hnames q hq).2 c hc).2.1⟩⟩
  simp only [BPMDataParen.from_text]
  rw [joinCont_id _ hback]
  simp only [BPMDataSDDS.to_data_text]
  have hmap : (list_bpms D).map
      (fun n => BPMDataSDDS.entryFor cfg n ((lookupD D n).getD ⟨[], [], []⟩)) =
      ((list_bpms D).map (fun n => (n, (lookupD D n).getD ⟨[], [], []⟩))).map
        (fun p => BPMDataSDDS.entryFor cfg p.1 p.2) := by
    rw [List.map_map]
    rfl
  rw [hmap]
  rw [findParen_skip '{' _ (patMatchAt_not_lparen _ (by decide))]
  rw [findParen_entries cfg _ hnames2 hfmt hsep]
  have hkeysmk : (((list_bpms D).map (fun n => (n, (lookupD D n).getD ⟨[], [], []⟩))).map
      (fun p => (p.1.data,
        BPMDataSDDS.fmt_array cfg ((BPMDataSDDS.writerArrays cfg p.2).x.drop 1),
        BPMDataSDDS.fmt_array cfg ((BPMDataSDDS.writerArrays cfg p.2).y.drop 1),
        BPMDataSDDS.fmt_array cfg ((BPMDataSDDS.writerArrays cfg p.2).z.drop 1)))).map
        (fun m => String.mk m.1) = list_bpms D := by
    rw [List.map_map, List.map_map]
    show (list_bpms D).map (fun n => n) = list_bpms D
    simp
  rw [foldl_insertReplace_fresh _ [] (by rw [hkeysmk]; exact list_bpms_nodup hnodup)
    (by intro m hm h; simp [keysOf] at h)]
  simp only [List.nil_append, List.map_map]
  apply List.map_congr_left
  intro n hn
  have hk : n ∈ keysOf D := (List.mem_insertionSort (fun a b => strLe a b = true)).mp hn
  obtain ⟨t0, ht0⟩ := lookupD_isSome_of_mem hk
  have hmem : (n, t0) ∈ D := lookupD_mem ht0
  have hex := hexact (n, t0) hmem
  have htr := roundTrip_triple cfg t0 hz hfmt hsep hsne hex.1 hex.2 hzexact
  simp only [Function.comp, ht0, Option.getD_some]
  rw [htr.1, htr.2.1, htr.2.2]

end BPMData

namespace BPMData

/-- C1 counterexample to the literal claim: with the writer defaults
(`{:.7g}` formatting) at scale 2 and fill 1, the row dataset
`x = [1, 12345678, 3]` round-trips to `x = [24691360, 6]` — the `.7g`
rendering `2.469136e+07` of `24691356` re-parses to a different number —
and the recovered z is `[2, 2] = z_fill * scale`, not the fill constant
`1` the claim promises. -/
theorem C1_counterexample :
    BPMDataParen.from_text (String.mk (BPMDataSDDS.to_data_text
        ⟨true, pyG7, ",", 6, 1, 2⟩
        (BPMDataSDDS.from_text "0 BPM1 1 12345678 3\n1 BPM1 4 5 6"))) =
      [("BPM1", ⟨[24691360, 6], [10, 12], [2, 2]⟩)] ∧
    lookupD (BPMDataSDDS.from_text "0 BPM1 1 12345678 3\n1 BPM1 4 5 6") "BPM1" =
      some ⟨[1, 12345678, 3], [4, 5, 6], [0, 0, 0]⟩ ∧
    ([24691360, 6] : List ℚ) ≠ ([(1 : ℚ), 12345678, 3].drop 1).map (fun v => v * 2) ∧
    ([2, 2] : List ℚ) ≠ List.replicate 2 (1 : ℚ) := by
  refine ⟨by decide, by decide, by decide, by decide⟩

/-- C1 witness: the amended theorem applied at an exact configuration: constant formatter `1`,
scale 1, fill 1, one BPM `A` with `x = [1, 1, 1]`, `y = [1, 1]`,
`z = [7]`; the round trip returns `x = [1, 1]`, `y = [1]` and
`z = [1, 1]` — the original `z = [7]` is discarded. -/
theorem C1_round_trip_witness :
    BPMDataParen.from_text (String.mk (BPMDataSDDS.to_data_text
        ⟨true, fun _ => "1", ",", 6, 1, 1⟩
        [("A", ⟨[1, 1, 1], [1, 1], [7]⟩)])) =
      [("A", ⟨[1, 1], [1], [1, 1]⟩)] := by
  have h := C1_round_trip_amended ⟨true, fun _ => "1", ",", 6, 1, 1⟩
    [("A", ⟨[1, 1, 1], [1, 1], [7]⟩)] rfl (by decide) (by decide)
    (fun v => numShape_one) (by intro c hc; exact Or.inl (by simpa using hc))
    (by decide) (by decide) (by decide)
  rw [h]
  decide

end BPMData
